import Mathlib

/-!
# A verification model of JUCE's `KeyPressMappingSet`

This file embeds the key-to-command mapping engine declared in
`src/modules/juce_gui_basics/commands/juce_KeyPressMappingSet.h` (data
model: `CommandMapping`, `KeyPressTime`) together with the command
descriptor of `src/modules/juce_gui_basics/commands/juce_ApplicationCommandInfo.h`.
The repository ships only the class declarations; the member-function
bodies (`juce_KeyPressMappingSet.cpp`) are not part of the source tree,
so every operation below is modelled from the specification's
description of the behaviour (each such definition says so in its doc
comment).  Theorems at the end settle the specification's testable
properties against this model.
-/

namespace JuceKeyMap

/-- A key combination: a key code plus modifier bits.  The spec treats it as
an opaque comparable value ("exact character + modifier bits"); source
`juce_KeyPressMappingSet.h` stores `KeyPress` values. -/
structure KeyPress where
  keyCode : Nat
  mods : Nat
deriving DecidableEq, Repr

/-- Command identifier; `0` is the "no command" sentinel
(`findCommandForKeyPress` returns 0 when nothing is found, per the header
doc at `juce_KeyPressMappingSet.h:178`). -/
abbrev CommandID := Nat

/-- From source `juce_KeyPressMappingSet.h:229-234`: one record of the
binding store. -/
structure CommandMapping where
  commandID : CommandID
  keypresses : List KeyPress
  wantsKeyUpDownCallbacks : Bool
deriving DecidableEq, Repr

/-- The binding store: source field `OwnedArray<CommandMapping> mappings`
(`juce_KeyPressMappingSet.h:236`), an ordered sequence. -/
abbrev Store := List CommandMapping

/-- Projection of `ApplicationCommandInfo`
(`juce_ApplicationCommandInfo.h:53-202`) onto the fields the mapping
engine consumes: the command's id, its default keypresses and its flags. -/
structure ApplicationCommandInfo where
  commandID : CommandID
  defaultKeypresses : List KeyPress
  flags : Nat
deriving DecidableEq, Repr

/-- From source `juce_ApplicationCommandInfo.h:172`:
`wantsKeyUpDownCallbacks = 1 << 2`, so a command wants press/release
pairing iff bit 2 of its flags is set. -/
def ApplicationCommandInfo.wantsKeyUpDown (ci : ApplicationCommandInfo) : Bool :=
  ci.flags.testBit 2

/-- The external command registry (spec section 6): an ordered list of command
descriptors; enumeration order is the list order. -/
abbrev Registry := List ApplicationCommandInfo

/-- Modelled from the spec: the registry lookup `getCommandForID`
consumed by the mapping engine (the `ApplicationCommandManager` is an
external collaborator, spec section 6). -/
def getCommandForID (reg : Registry) (cid : CommandID) : Option ApplicationCommandInfo :=
  reg.find? (fun ci => decide (ci.commandID = cid))

/-- Modelled from the spec: `wantsPressReleasePairs(commandId)` — the flag a
new `CommandMapping` captures from the owning command's declared flags
(spec section 3); `false` when the command is unknown. -/
def registryWantsKeyUpDown (reg : Registry) (cid : CommandID) : Bool :=
  match getCommandForID reg cid with
  | some ci => ci.wantsKeyUpDown
  | none => false

/-- Modelled from the spec: `KeyPressMappingSet::findCommandForKeyPress`
(declared at `juce_KeyPressMappingSet.h:180`, body not in the tree):
"the UID of the command or 0 if none was found"; the store is scanned in
order. -/
def findCommandForKeyPress (s : Store) (k : KeyPress) : CommandID :=
  match s.find? (fun m => decide (k ∈ m.keypresses)) with
  | some m => m.commandID
  | none => 0

/-- Modelled from the spec: `KeyPressMappingSet::containsMapping`
(declared at `juce_KeyPressMappingSet.h:174`): true iff the given command
is linked to this key. -/
def containsMapping (s : Store) (cid : CommandID) (k : KeyPress) : Bool :=
  s.any (fun m => decide (m.commandID = cid) && decide (k ∈ m.keypresses))

/-- Modelled from the spec: `KeyPressMappingSet::getKeyPressesAssignedToCommand`
(declared at `juce_KeyPressMappingSet.h:129`): the key list of the
command's entry, empty when the command has no entry ("empty if unknown",
spec section 4.1). -/
def getKeyPressesAssignedToCommand (s : Store) (cid : CommandID) : List KeyPress :=
  match s.find? (fun m => decide (m.commandID = cid)) with
  | some m => m.keypresses
  | none => []

/-- Entries whose last keypress was removed are dropped from the store:
the policy choice the spec leaves to the implementer (section 3 lifecycle,
section 9), applied consistently to every removal below. -/
def dropEmpty (s : Store) : Store :=
  s.filter (fun m => decide (m.keypresses ≠ []))

/-- Modelled from the spec: `KeyPressMappingSet::removeKeyPress (const KeyPress&)`
(declared at `juce_KeyPressMappingSet.h:171`): removes a keypress from any
command it may be assigned to; no-op if unbound. -/
def removeKeyPress (s : Store) (k : KeyPress) : Store :=
  dropEmpty (s.map (fun m => { m with keypresses := m.keypresses.filter (fun x => decide (x ≠ k)) }))

/-- Insert clamped at the end when the index overshoots (the behaviour of
`juce::Array::insert`). -/
def insertKeyAt : Nat → KeyPress → List KeyPress → List KeyPress
  | 0, k, ks => k :: ks
  | _ + 1, k, [] => [k]
  | n + 1, k, x :: ks => x :: insertKeyAt n k ks

/-- Modelled from the spec: the `insertIndex` convention of `addKeyPress`
(`juce_KeyPressMappingSet.h:140-142`): "if this is less than zero, the key
will be appended to the end of the list". -/
def insertKey (ks : List KeyPress) (insertIndex : Int) (k : KeyPress) : List KeyPress :=
  if insertIndex < 0 then ks ++ [k] else insertKeyAt insertIndex.toNat k ks

/-- The insertion step of `addKeyPress` once the key has been stripped from
any previous owner: insert into the command's existing entry, or create
the entry (capturing the pairing flag from the registry) if absent. -/
def addKeyPressCore (reg : Registry) (t : Store) (commandID : CommandID)
    (newKeyPress : KeyPress) (insertIndex : Int) : Store :=
  if t.any (fun m => decide (m.commandID = commandID)) then
    t.map (fun m =>
      if m.commandID = commandID then
        { m with keypresses := insertKey m.keypresses insertIndex newKeyPress }
      else m)
  else
    t ++ [⟨commandID, [newKeyPress], registryWantsKeyUpDown reg commandID⟩]

/-- Modelled from the spec: `KeyPressMappingSet::addKeyPress`
(declared at `juce_KeyPressMappingSet.h:144-146`, body not in the tree).
Per the header doc and spec section 4.1: if the key is already assigned to a
different command it is first removed from that command; if `commandID`
is 0 only that stripping occurs; otherwise the key is inserted at
`insertIndex` into the command's entry, the entry being created (with the
pairing flag captured from the registry) if absent. -/
def addKeyPress (reg : Registry) (s : Store) (commandID : CommandID)
    (newKeyPress : KeyPress) (insertIndex : Int) : Store :=
  if findCommandForKeyPress s newKeyPress = commandID then s
  else if commandID = 0 then removeKeyPress s newKeyPress
  else addKeyPressCore reg (removeKeyPress s newKeyPress) commandID newKeyPress insertIndex

/-- Modelled from the spec: `KeyPressMappingSet::resetToDefaultMappings`
(declared at `juce_KeyPressMappingSet.h:151`): discards all current
bindings and, for every command known to the registry in enumeration
order, assigns its declared default keypress list. -/
def resetToDefaultMappings (reg : Registry) (_s : Store) : Store :=
  reg.foldl
    (fun acc ci =>
      ci.defaultKeypresses.foldl (fun acc2 k => addKeyPress reg acc2 ci.commandID k (-1)) acc)
    []

/-- Modelled from the spec: `KeyPressMappingSet::clearAllKeyPresses`
(declared at `juce_KeyPressMappingSet.h:159`): removes all keypresses;
with the drop-empty policy the store becomes empty. -/
def clearAllKeyPresses (_s : Store) : Store := []

/-- Modelled from the spec: `KeyPressMappingSet::removeKeyPress (CommandID, int)`
(declared at `juce_KeyPressMappingSet.h:168`): removes the key at the given
index of the command's list; silent no-op when the index is out of range or
the command unknown (spec section 4.1). -/
def removeKeyPressAt (s : Store) (cid : CommandID) (idx : Nat) : Store :=
  dropEmpty (s.map (fun m =>
    if m.commandID = cid then { m with keypresses := m.keypresses.eraseIdx idx } else m))

/-! ## Diff-based persistence codec (spec section 4.3) -/

/-- One child entry of the persisted document: either a binding of a key to
a command ("addition" / full-mode entry) or an explicit removal.  The
logical shape the spec prescribes for the persisted format (section 6). -/
inductive XmlMapEntry where
  | mapping (commandId : CommandID) (key : KeyPress)
  | unmapping (commandId : CommandID) (key : KeyPress)
deriving DecidableEq, Repr

/-- The persisted document: a root tag (so that "wrong root structure" is
expressible), the full-vs-diff mode marker, and the ordered entries. -/
structure XmlElement where
  tagName : String
  basedOnDefaults : Bool
  entries : List XmlMapEntry
deriving DecidableEq, Repr

/-- The root tag this component's persisted documents carry; any other
root is "not recognizable as this component's persisted format". -/
def keymapRootTag : String := "KEYMAPPINGS"

/-- The additions of the diff: per live entry, the keys absent from the
default set (spec section 4.3). -/
def diffAdditions (defaultSet s : Store) : List XmlMapEntry :=
  s.flatMap (fun m =>
    (m.keypresses.filter (fun k => !containsMapping defaultSet m.commandID k)).map
      (XmlMapEntry.mapping m.commandID))

/-- The explicit removals of the diff: per default entry, the keys present
in the default set but absent from the live set. -/
def diffRemovals (defaultSet s : Store) : List XmlMapEntry :=
  defaultSet.flatMap (fun m =>
    (m.keypresses.filter (fun k => !containsMapping s m.commandID k)).map
      (XmlMapEntry.unmapping m.commandID))

/-- The full-mode snapshot: every current binding verbatim, one entry per
key, in store order. -/
def fullEntries (s : Store) : List XmlMapEntry :=
  s.flatMap (fun m => m.keypresses.map (XmlMapEntry.mapping m.commandID))

/-- Modelled from the spec: `KeyPressMappingSet::createXml`
(declared at `juce_KeyPressMappingSet.h:215`, body not in the tree).
Full mode emits every current binding verbatim, one entry per key in
store order.  Diff mode first computes the default set, then emits the
keys present live but absent from the defaults as additions followed by
the keys present in the defaults but absent live as explicit removals
(spec section 4.3). -/
def createXml (reg : Registry) (s : Store) (saveDifferencesFromDefaultSet : Bool) : XmlElement :=
  if saveDifferencesFromDefaultSet then
    ⟨keymapRootTag, true,
      diffAdditions (resetToDefaultMappings reg s) s ++
        diffRemovals (resetToDefaultMappings reg s) s⟩
  else
    ⟨keymapRootTag, false, fullEntries s⟩

/-- Modelled from the spec: the per-entry replay of `restoreFromXml`.
An addition is applied with `assign`, an explicit removal strips the key
when it is currently bound to that command; entries referencing
commandIds unknown to the registry are skipped silently
(`juce_KeyPressMappingSet.h:187-188`, spec section 4.3). -/
def applyXmlEntry (reg : Registry) (s : Store) : XmlMapEntry → Store
  | XmlMapEntry.mapping cid k =>
      if (getCommandForID reg cid).isSome then addKeyPress reg s cid k (-1) else s
  | XmlMapEntry.unmapping cid k =>
      if (getCommandForID reg cid).isSome then
        if containsMapping s cid k then removeKeyPress s k else s
      else s

/-- Modelled from the spec: `KeyPressMappingSet::restoreFromXml`
(declared at `juce_KeyPressMappingSet.h:198`, body not in the tree).
A document with the wrong root is rejected (`false`) leaving the store
untouched.  Otherwise, per the header doc at
`juce_KeyPressMappingSet.h:190-193`: a diff-mode document first resets to
the default mappings and merges the saved entries on top, a full-mode
document first clears all existing mappings; the entries are then
replayed in recorded order and `true` is returned. -/
def restoreFromXml (reg : Registry) (s : Store) (xml : XmlElement) : Bool × Store :=
  if xml.tagName = keymapRootTag then
    (true, xml.entries.foldl (applyXmlEntry reg)
      (if xml.basedOnDefaults then resetToDefaultMappings reg s else clearAllKeyPresses s))
  else
    (false, s)

/-! ## Live key-state tracker (spec section 4.2) -/

/-- From source `juce_KeyPressMappingSet.h:238-242`: a held-key record. -/
structure KeyPressTime where
  key : KeyPress
  timeWhenPressed : Nat
deriving DecidableEq, Repr

/-- The mutable state of one mapping-engine instance: the binding store
(`mappings`, `juce_KeyPressMappingSet.h:236`) and the held-key records
(`keysDown`, `juce_KeyPressMappingSet.h:244`). -/
structure MappingEngine where
  mappings : Store
  keysDown : List KeyPressTime
deriving DecidableEq, Repr

/-- One call to `invokeCommand` (`juce_KeyPressMappingSet.h:246-247`):
the command id, the triggering key, the press/release flag and the
elapsed milliseconds (0 for a press). -/
structure Invocation where
  commandID : CommandID
  key : KeyPress
  isKeyDown : Bool
  millisecsSinceKeyPressed : Nat
deriving DecidableEq, Repr

/-- Modelled from the spec: the pairing flag of the binding resolved for a
key (the `wantsKeyUpDownCallbacks` field captured in the entry). -/
def wantsPairFor (s : Store) (k : KeyPress) : Bool :=
  match s.find? (fun m => decide (k ∈ m.keypresses)) with
  | some m => m.wantsKeyUpDownCallbacks
  | none => false

/-- Modelled from the spec: `KeyPressMappingSet::keyPressed`
(declared at `juce_KeyPressMappingSet.h:219`, body not in the tree).
Spec section 4.2: on key-down, if no command is bound the event is
ignored; if a held-key record for the key already exists (key repeat) no
duplicate record is created and the command is not re-invoked; otherwise
the command is invoked once with a press signal and, when the binding
wants press/release pairing, a record with the current timestamp is
created. -/
def keyPressed (st : MappingEngine) (k : KeyPress) (now : Nat) :
    MappingEngine × List Invocation :=
  if findCommandForKeyPress st.mappings k = 0 then (st, [])
  else if st.keysDown.any (fun r => decide (r.key = k)) then (st, [])
  else if wantsPairFor st.mappings k then
    ({ st with keysDown := st.keysDown ++ [⟨k, now⟩] },
      [⟨findCommandForKeyPress st.mappings k, k, true, 0⟩])
  else (st, [⟨findCommandForKeyPress st.mappings k, k, true, 0⟩])

/-- Modelled from the spec: `KeyPressMappingSet::keyStateChanged`
(declared at `juce_KeyPressMappingSet.h:221`, body not in the tree).
Spec section 4.2: scan all held-key records; each record whose key is no
longer physically down (`physDown` is the external `isPhysicallyDown`
query) has its command invoked with a release signal and elapsed time
`now - pressedAt` and is destroyed; records whose key is still down are
left untouched. -/
def keyStateChanged (st : MappingEngine) (physDown : KeyPress → Bool) (now : Nat) :
    MappingEngine × List Invocation :=
  ({ st with keysDown := st.keysDown.filter (fun r => physDown r.key) },
    (st.keysDown.filter (fun r => !physDown r.key)).filterMap (fun r =>
      if findCommandForKeyPress st.mappings r.key = 0 then none
      else some ⟨findCommandForKeyPress st.mappings r.key, r.key, false,
        now - r.timeWhenPressed⟩))

/-- Modelled from the spec: `KeyPressMappingSet::globalFocusChanged`
(declared at `juce_KeyPressMappingSet.h:223`, body not in the tree).
Spec section 4.2: destroy all held-key records unconditionally, without
emitting release invocations. -/
def globalFocusChanged (st : MappingEngine) : MappingEngine × List Invocation :=
  ({ st with keysDown := [] }, [])

/-- A raw event delivered by the external key-event source or the focus
notification source (spec section 6).  A `stateChanged` event carries the
set of keys the external source reports as physically down at that
moment. -/
inductive KeyEvent where
  | down (k : KeyPress) (now : Nat)
  | stateChanged (physDown : List KeyPress) (now : Nat)
  | focusChanged
deriving DecidableEq, Repr

/-- Dispatch of one raw event to the engine. -/
def stepEvent (st : MappingEngine) : KeyEvent → MappingEngine × List Invocation
  | KeyEvent.down k now => keyPressed st k now
  | KeyEvent.stateChanged phys now => keyStateChanged st (fun k => decide (k ∈ phys)) now
  | KeyEvent.focusChanged => globalFocusChanged st

/-- Run a sequence of raw events, concatenating the invocations issued. -/
def runEvents (st : MappingEngine) : List KeyEvent → MappingEngine × List Invocation
  | [] => (st, [])
  | e :: rest =>
      ((runEvents (stepEvent st e).1 rest).1,
        (stepEvent st e).2 ++ (runEvents (stepEvent st e).1 rest).2)

/-! ## Store invariants (spec section 3) -/

/-- `k` is bound to command `cid` in the store. -/
def BoundTo (s : Store) (cid : CommandID) (k : KeyPress) : Prop :=
  containsMapping s cid k = true

/-- `k` appears in no entry's key list. -/
def KeyUnbound (s : Store) (k : KeyPress) : Prop :=
  ∀ m ∈ s, k ∉ m.keypresses

/-- Invariant I1: no KeyCombination appears in more than one entry's key
sequence. -/
def I1 (s : Store) : Prop :=
  s.Pairwise (fun a b => ∀ k ∈ a.keypresses, k ∉ b.keypresses)

/-- Invariant I2: commandId is unique across the store. -/
def I2 (s : Store) : Prop :=
  (s.map (fun m => m.commandID)).Nodup

/-- No entry carries the sentinel commandId 0. -/
def NoZero (s : Store) : Prop :=
  ∀ m ∈ s, m.commandID ≠ 0

/-- Drop-empty policy invariant: no entry has an empty key list. -/
def NoEmpty (s : Store) : Prop :=
  ∀ m ∈ s, m.keypresses ≠ []

/-- Every entry's commandId is recognized by the registry. -/
def KnownCids (reg : Registry) (s : Store) : Prop :=
  ∀ m ∈ s, (getCommandForID reg m.commandID).isSome = true

/-- Keys within one entry are pairwise distinct ("duplicates forbidden
within the sequence", spec section 3). -/
def KeysNodup (s : Store) : Prop :=
  ∀ m ∈ s, m.keypresses.Nodup

/-- The data-model invariants of a Binding Store (spec section 3, with the
drop-empty policy of `dropEmpty`): every store reachable through the
mutation API from a reset satisfies these. -/
structure WFStore (reg : Registry) (s : Store) : Prop where
  i1 : I1 s
  i2 : I2 s
  noZero : NoZero s
  noEmpty : NoEmpty s
  known : KnownCids reg s
  keysNodup : KeysNodup s

/-- One call of the binding mutation API over the store: `addKeyPress` or
one of the two `removeKeyPress` overloads. -/
inductive MapOp where
  | assign (commandID : CommandID) (key : KeyPress) (insertIndex : Int)
  | removeKey (key : KeyPress)
  | removeAt (commandID : CommandID) (index : Nat)
deriving DecidableEq, Repr

/-- Apply one mutation call to the store. -/
def applyOp (reg : Registry) (s : Store) : MapOp → Store
  | MapOp.assign cid k i => addKeyPress reg s cid k i
  | MapOp.removeKey k => removeKeyPress s k
  | MapOp.removeAt cid idx => removeKeyPressAt s cid idx

/-- Apply a sequence of mutation calls, oldest first. -/
def applyOps (reg : Registry) (s : Store) (ops : List MapOp) : Store :=
  ops.foldl (applyOp reg) s

/-- An operation "over registry-known commandIds": an assign may only name
the sentinel 0 or a command the registry recognizes. -/
def OpOk (reg : Registry) : MapOp → Prop
  | MapOp.assign cid _ _ => cid = 0 ∨ (getCommandForID reg cid).isSome = true
  | MapOp.removeKey _ => True
  | MapOp.removeAt _ _ => True

/-- The events of a sequence contain no key-down of `k`. -/
def noDownFor (k : KeyPress) (es : List KeyEvent) : Bool :=
  es.all (fun e => match e with
    | KeyEvent.down k2 _ => decide (k2 ≠ k)
    | KeyEvent.stateChanged _ _ => true
    | KeyEvent.focusChanged => true)

/-- Number of held-key records the engine holds for `k`. -/
def recordsFor (st : MappingEngine) (k : KeyPress) : Nat :=
  (st.keysDown.filter (fun r => decide (r.key = k))).length

/-- The key a persisted entry refers to. -/
def entryKey : XmlMapEntry → KeyPress
  | XmlMapEntry.mapping _ k => k
  | XmlMapEntry.unmapping _ k => k

/-- The commandId a persisted entry refers to. -/
def entryCid : XmlMapEntry → CommandID
  | XmlMapEntry.mapping c _ => c
  | XmlMapEntry.unmapping c _ => c

/-- The command an addition entry assigns to key `k`, if it names `k`. -/
def assignsTo (k : KeyPress) : XmlMapEntry → Option CommandID
  | XmlMapEntry.mapping c k2 => if k2 = k then some c else none
  | XmlMapEntry.unmapping _ _ => none

/-- The command assigned by the last addition entry naming key `k`, if
any. -/
def lastAssignFor (es : List XmlMapEntry) (k : KeyPress) : Option CommandID :=
  (es.filterMap (assignsTo k)).getLast?

instance instDecI1 (s : Store) : Decidable (I1 s) :=
  inferInstanceAs
    (Decidable (s.Pairwise fun a b : CommandMapping => ∀ k ∈ a.keypresses, k ∉ b.keypresses))

instance instDecI2 (s : Store) : Decidable (I2 s) :=
  inferInstanceAs (Decidable ((s.map fun m : CommandMapping => m.commandID).Nodup))

instance instDecNoZero (s : Store) : Decidable (NoZero s) :=
  inferInstanceAs (Decidable (∀ m ∈ s, m.commandID ≠ 0))

instance instDecNoEmpty (s : Store) : Decidable (NoEmpty s) :=
  inferInstanceAs (Decidable (∀ m ∈ s, m.keypresses ≠ []))

instance instDecKnownCids (reg : Registry) (s : Store) : Decidable (KnownCids reg s) :=
  inferInstanceAs (Decidable (∀ m ∈ s, (getCommandForID reg m.commandID).isSome = true))

instance instDecKeysNodup (s : Store) : Decidable (KeysNodup s) :=
  inferInstanceAs (Decidable (∀ m ∈ s, m.keypresses.Nodup))

instance instDecBoundTo (s : Store) (cid : CommandID) (k : KeyPress) :
    Decidable (BoundTo s cid k) :=
  inferInstanceAs (Decidable (containsMapping s cid k = true))

instance instDecKeyUnbound (s : Store) (k : KeyPress) : Decidable (KeyUnbound s k) :=
  inferInstanceAs (Decidable (∀ m ∈ s, k ∉ m.keypresses))

instance instDecOpOk (reg : Registry) : (op : MapOp) → Decidable (OpOk reg op)
  | MapOp.assign cid _ _ =>
      inferInstanceAs (Decidable (cid = 0 ∨ (getCommandForID reg cid).isSome = true))
  | MapOp.removeKey _ => inferInstanceAs (Decidable True)
  | MapOp.removeAt _ _ => inferInstanceAs (Decidable True)

theorem containsMapping_iff {s : Store} {cid : CommandID} {k : KeyPress} :
    containsMapping s cid k = true ↔ ∃ m ∈ s, m.commandID = cid ∧ k ∈ m.keypresses := by
  simp [containsMapping, List.any_eq_true]

theorem boundTo_iff {s : Store} {cid : CommandID} {k : KeyPress} :
    BoundTo s cid k ↔ ∃ m ∈ s, m.commandID = cid ∧ k ∈ m.keypresses :=
  containsMapping_iff

theorem keyUnbound_iff_not_boundTo {s : Store} {k : KeyPress} :
    KeyUnbound s k ↔ ∀ cid, ¬ BoundTo s cid k := by
  constructor
  · intro h cid hb
    obtain ⟨m, hm, _, hk⟩ := boundTo_iff.mp hb
    exact h m hm hk
  · intro h m hm hk
    exact h m.commandID (boundTo_iff.mpr ⟨m, hm, rfl, hk⟩)

/-- The disjointness relation of I1 is symmetric. -/
theorem disjoint_symm :
    Symmetric (fun a b : CommandMapping => ∀ k ∈ a.keypresses, k ∉ b.keypresses) := by
  intro a b h k hkb hka
  exact h k hka hkb

/-- Under I1, a key determines the entry that holds it. -/
theorem I1.mem_unique {s : Store} (h : I1 s) {m m' : CommandMapping} {k : KeyPress}
    (hm : m ∈ s) (hm' : m' ∈ s) (hk : k ∈ m.keypresses) (hk' : k ∈ m'.keypresses) :
    m = m' := by
  by_contra hne
  exact (h.forall disjoint_symm) hm hm' hne k hk hk'

theorem findCommand_eq_zero_of_unbound {s : Store} {k : KeyPress}
    (h : KeyUnbound s k) : findCommandForKeyPress s k = 0 := by
  unfold findCommandForKeyPress
  have : s.find? (fun m => decide (k ∈ m.keypresses)) = none := by
    rw [List.find?_eq_none]
    intro m hm
    simpa using h m hm
  rw [this]

theorem keyUnbound_of_findCommand_eq_zero {s : Store} {k : KeyPress}
    (hz : NoZero s) (h : findCommandForKeyPress s k = 0) : KeyUnbound s k := by
  unfold findCommandForKeyPress at h
  intro m hm hk
  cases hfind : s.find? (fun m => decide (k ∈ m.keypresses)) with
  | none =>
      rw [List.find?_eq_none] at hfind
      exact hfind m hm (by simpa using hk)
  | some m' =>
      rw [hfind] at h
      exact hz m' (List.mem_of_find?_eq_some hfind) h

/-- Under I1, if `k` is bound to `c`, the scan finds `c`. -/
theorem findCommand_eq_of_boundTo {s : Store} {c : CommandID} {k : KeyPress}
    (h1 : I1 s) (hb : BoundTo s c k) : findCommandForKeyPress s k = c := by
  obtain ⟨m, hm, hcid, hk⟩ := boundTo_iff.mp hb
  unfold findCommandForKeyPress
  cases hfind : s.find? (fun m => decide (k ∈ m.keypresses)) with
  | none =>
      rw [List.find?_eq_none] at hfind
      exact absurd (by simpa using hk) (hfind m hm)
  | some m' =>
      have hk' : k ∈ m'.keypresses := by
        simpa using List.find?_some hfind
      have := h1.mem_unique hm (List.mem_of_find?_eq_some hfind) hk hk'
      simp [← this, hcid]

/-! ## Lemmas about `removeKeyPress` -/

theorem mem_removeKeyPress {s : Store} {k : KeyPress} {m : CommandMapping} :
    m ∈ removeKeyPress s k ↔
      ∃ m₀ ∈ s,
        m = { m₀ with keypresses := m₀.keypresses.filter (fun x => decide (x ≠ k)) } ∧
        m.keypresses ≠ [] := by
  simp only [removeKeyPress, dropEmpty, List.mem_filter, List.mem_map]
  constructor
  · rintro ⟨⟨m₀, hm₀, rfl⟩, hne⟩
    exact ⟨m₀, hm₀, rfl, by simpa using hne⟩
  · rintro ⟨m₀, hm₀, rfl, hne⟩
    exact ⟨⟨m₀, hm₀, rfl⟩, by simpa using hne⟩

theorem keyUnbound_removeKeyPress (s : Store) (k : KeyPress) :
    KeyUnbound (removeKeyPress s k) k := by
  intro m hm hk
  obtain ⟨m₀, _, rfl, _⟩ := mem_removeKeyPress.mp hm
  simp [List.mem_filter] at hk

theorem boundTo_removeKeyPress {s : Store} {k k' : KeyPress} {c : CommandID}
    (hne : k' ≠ k) : BoundTo (removeKeyPress s k) c k' ↔ BoundTo s c k' := by
  simp only [BoundTo, containsMapping_iff]
  constructor
  · rintro ⟨m, hm, hcid, hk'⟩
    obtain ⟨m₀, hm₀, rfl, _⟩ := mem_removeKeyPress.mp hm
    refine ⟨m₀, hm₀, hcid, ?_⟩
    simpa using (List.mem_filter.mp hk').1
  · rintro ⟨m₀, hm₀, hcid, hk'⟩
    refine ⟨{ m₀ with keypresses := m₀.keypresses.filter (fun x => decide (x ≠ k)) },
      mem_removeKeyPress.mpr ⟨m₀, hm₀, rfl, ?_⟩, hcid, ?_⟩
    · exact List.ne_nil_of_mem (List.mem_filter.mpr ⟨hk', by simpa using hne⟩)
    · exact List.mem_filter.mpr ⟨hk', by simpa using hne⟩

theorem removeKeyPress_eq_self {s : Store} {k : KeyPress}
    (hu : KeyUnbound s k) (hne : NoEmpty s) : removeKeyPress s k = s := by
  unfold removeKeyPress dropEmpty
  have hmap : s.map (fun m =>
      { m with keypresses := m.keypresses.filter (fun x => decide (x ≠ k)) }) = s := by
    have : ∀ m ∈ s,
        ({ m with keypresses := m.keypresses.filter (fun x => decide (x ≠ k)) } :
          CommandMapping) = m := by
      intro m hm
      have : m.keypresses.filter (fun x => decide (x ≠ k)) = m.keypresses := by
        rw [List.filter_eq_self]
        intro x hx
        have : x ≠ k := fun hxk => hu m hm (hxk ▸ hx)
        simpa using this
      rw [this]
    calc s.map (fun m =>
          { m with keypresses := m.keypresses.filter (fun x => decide (x ≠ k)) })
        = s.map id := List.map_congr_left this
      _ = s := List.map_id s
  rw [hmap, List.filter_eq_self]
  intro m hm
  simpa using hne m hm

/-! ## Invariant preservation by `removeKeyPress` -/

theorem I1_removeKeyPress {s : Store} (h : I1 s) (k : KeyPress) :
    I1 (removeKeyPress s k) := by
  unfold removeKeyPress dropEmpty
  apply List.Pairwise.sublist (List.filter_sublist _)
  rw [List.pairwise_map]
  refine h.imp ?_
  intro a b hab x hx
  have hxa : x ∈ a.keypresses := (List.mem_filter.mp hx).1
  intro hxb
  exact hab x hxa (List.mem_filter.mp hxb).1

theorem I2_removeKeyPress {s : Store} (h : I2 s) (k : KeyPress) :
    I2 (removeKeyPress s k) := by
  unfold removeKeyPress dropEmpty
  apply List.Nodup.sublist (List.Sublist.map _ (List.filter_sublist _))
  rw [List.map_map]
  exact h

theorem noZero_removeKeyPress {s : Store} (h : NoZero s) (k : KeyPress) :
    NoZero (removeKeyPress s k) := by
  intro m hm
  obtain ⟨m₀, hm₀, rfl, _⟩ := mem_removeKeyPress.mp hm
  exact h m₀ hm₀

theorem noEmpty_removeKeyPress (s : Store) (k : KeyPress) :
    NoEmpty (removeKeyPress s k) := by
  intro m hm
  exact (mem_removeKeyPress.mp hm).choose_spec.2.2

theorem knownCids_removeKeyPress {reg : Registry} {s : Store}
    (h : KnownCids reg s) (k : KeyPress) : KnownCids reg (removeKeyPress s k) := by
  intro m hm
  obtain ⟨m₀, hm₀, rfl, _⟩ := mem_removeKeyPress.mp hm
  exact h m₀ hm₀

/-! ## Lemmas about `insertKey` -/

theorem mem_insertKeyAt {n : Nat} {k x : KeyPress} {ks : List KeyPress} :
    x ∈ insertKeyAt n k ks ↔ x = k ∨ x ∈ ks := by
  induction n generalizing ks with
  | zero => simp [insertKeyAt]
  | succ n ih =>
      cases ks with
      | nil => simp [insertKeyAt]
      | cons y ys =>
          simp [insertKeyAt, ih]
          tauto

theorem mem_insertKey {i : Int} {k x : KeyPress} {ks : List KeyPress} :
    x ∈ insertKey ks i k ↔ x = k ∨ x ∈ ks := by
  unfold insertKey
  split
  · simp
    tauto
  · exact mem_insertKeyAt

theorem insertKey_ne_nil {i : Int} {k : KeyPress} {ks : List KeyPress} :
    insertKey ks i k ≠ [] := by
  intro h
  have : k ∈ insertKey ks i k := mem_insertKey.mpr (Or.inl rfl)
  rw [h] at this
  exact absurd this (List.not_mem_nil k)

/-! ## `addKeyPressCore` characterization and invariants -/

/-- The entry `addKeyPressCore`'s map step produces from `m` keeps `m`'s
commandId. -/
theorem ite_insert_cid {c : CommandID} {k : KeyPress} {i : Int} (m : CommandMapping) :
    ((if m.commandID = c then { m with keypresses := insertKey m.keypresses i k } else m) :
      CommandMapping).commandID = m.commandID := by
  split <;> rfl

/-- Key membership in the entry `addKeyPressCore`'s map step produces. -/
theorem mem_ite_insert_keys {c : CommandID} {k x : KeyPress} {i : Int} (m : CommandMapping) :
    (x ∈ ((if m.commandID = c then { m with keypresses := insertKey m.keypresses i k } else m) :
      CommandMapping).keypresses) ↔ (x = k ∧ m.commandID = c) ∨ x ∈ m.keypresses := by
  split
  · next h =>
      simp only [mem_insertKey, h, and_true]
  · next h =>
      simp only [h, and_false, false_or]

theorem boundTo_core_self {reg : Registry} {t : Store} {c c' : CommandID}
    {k : KeyPress} {i : Int} (hu : KeyUnbound t k) :
    BoundTo (addKeyPressCore reg t c k i) c' k ↔ c' = c := by
  unfold addKeyPressCore
  split
  · next hany =>
      simp only [List.any_eq_true, decide_eq_true_eq] at hany
      obtain ⟨m₁, hm₁, hcid₁⟩ := hany
      simp only [BoundTo, containsMapping_iff, List.mem_map]
      constructor
      · rintro ⟨m, ⟨m₀, hm₀, rfl⟩, hcid, hk⟩
        rw [ite_insert_cid] at hcid
        rw [mem_ite_insert_keys] at hk
        rcases hk with ⟨_, hcc⟩ | hk
        · exact hcid.symm.trans hcc
        · exact absurd hk (hu m₀ hm₀)
      · rintro rfl
        refine ⟨_, ⟨m₁, hm₁, rfl⟩, ?_, ?_⟩
        · rw [ite_insert_cid]
          exact hcid₁
        · rw [mem_ite_insert_keys]
          exact Or.inl ⟨rfl, hcid₁⟩
  · simp only [BoundTo, containsMapping_iff]
    constructor
    · rintro ⟨m, hm, hcid, hk⟩
      rcases List.mem_append.mp hm with hm | hm
      · exact absurd hk (hu m hm)
      · simp only [List.mem_singleton] at hm
        rw [hm] at hcid
        exact hcid.symm
    · rintro rfl
      refine ⟨⟨c', [k], registryWantsKeyUpDown reg c'⟩,
        List.mem_append.mpr (Or.inr (by simp)), rfl, by simp⟩

theorem boundTo_core_other {reg : Registry} {t : Store} {c c' : CommandID}
    {k k' : KeyPress} {i : Int} (hne : k' ≠ k) :
    BoundTo (addKeyPressCore reg t c k i) c' k' ↔ BoundTo t c' k' := by
  unfold addKeyPressCore
  split
  · simp only [BoundTo, containsMapping_iff, List.mem_map]
    constructor
    · rintro ⟨m, ⟨m₀, hm₀, rfl⟩, hcid, hk⟩
      rw [ite_insert_cid] at hcid
      rw [mem_ite_insert_keys] at hk
      rcases hk with ⟨hk, _⟩ | hk
      · exact absurd hk hne
      · exact ⟨m₀, hm₀, hcid, hk⟩
    · rintro ⟨m₀, hm₀, hcid, hk⟩
      refine ⟨_, ⟨m₀, hm₀, rfl⟩, ?_, ?_⟩
      · rw [ite_insert_cid]
        exact hcid
      · rw [mem_ite_insert_keys]
        exact Or.inr hk
  · simp only [BoundTo, containsMapping_iff]
    constructor
    · rintro ⟨m, hm, hcid, hk⟩
      rcases List.mem_append.mp hm with hm | hm
      · exact ⟨m, hm, hcid, hk⟩
      · simp only [List.mem_singleton] at hm
        rw [hm] at hk
        simp only [List.mem_singleton] at hk
        exact absurd hk hne
    · rintro ⟨m, hm, hcid, hk⟩
      exact ⟨m, List.mem_append.mpr (Or.inl hm), hcid, hk⟩

theorem I1_core {reg : Registry} {t : Store} {c : CommandID} {k : KeyPress} {i : Int}
    (h1 : I1 t) (h2 : I2 t) (hu : KeyUnbound t k) :
    I1 (addKeyPressCore reg t c k i) := by
  unfold addKeyPressCore
  split
  · unfold I1
    rw [List.pairwise_map]
    have hne : t.Pairwise (fun a b => a.commandID ≠ b.commandID) :=
      List.pairwise_map.mp h2
    refine (h1.and hne).imp_of_mem ?_
    rintro a b ha hb ⟨hab, hcidne⟩ x hx
    rw [mem_ite_insert_keys] at hx
    intro hxb
    rw [mem_ite_insert_keys] at hxb
    rcases hx with ⟨rfl, hac⟩ | hx
    · rcases hxb with ⟨_, hbc⟩ | hxb
      · exact hcidne (hac.trans hbc.symm)
      · exact hu b hb hxb
    · rcases hxb with ⟨rfl, _⟩ | hxb
      · exact hu a ha hx
      · exact hab x hx hxb
  · next hany =>
      unfold I1
      rw [List.pairwise_append]
      refine ⟨h1, by simp, ?_⟩
      intro a ha b hb x hx
      simp only [List.mem_singleton] at hb
      rw [hb]
      simp only [List.mem_singleton]
      rintro rfl
      exact hu a ha hx

theorem I2_core {reg : Registry} {t : Store} {c : CommandID} {k : KeyPress} {i : Int}
    (h2 : I2 t) : I2 (addKeyPressCore reg t c k i) := by
  unfold addKeyPressCore
  split
  · unfold I2
    rw [List.map_map]
    have : ((fun m : CommandMapping => m.commandID) ∘ (fun m =>
        if m.commandID = c then
          { m with keypresses := insertKey m.keypresses i k }
        else m)) = fun m : CommandMapping => m.commandID := by
      funext m
      exact ite_insert_cid m
    rw [this]
    exact h2
  · next hany =>
      unfold I2
      rw [List.map_append, List.nodup_append]
      refine ⟨h2, by simp, ?_⟩
      simp only [List.any_eq_true, decide_eq_true_eq, not_exists, not_and] at hany
      simp only [List.map_cons, List.map_nil, List.disjoint_singleton]
      intro hmem
      obtain ⟨m, hm, hcid⟩ := List.mem_map.mp hmem
      exact hany m hm hcid

theorem noZero_core {reg : Registry} {t : Store} {c : CommandID} {k : KeyPress} {i : Int}
    (hz : NoZero t) (hc : c ≠ 0) : NoZero (addKeyPressCore reg t c k i) := by
  unfold addKeyPressCore
  split
  · intro m hm
    obtain ⟨m₀, hm₀, rfl⟩ := List.mem_map.mp hm
    rw [ite_insert_cid]
    exact hz m₀ hm₀
  · intro m hm
    rcases List.mem_append.mp hm with hm | hm
    · exact hz m hm
    · simp only [List.mem_singleton] at hm
      rw [hm]
      exact hc

theorem noEmpty_core {reg : Registry} {t : Store} {c : CommandID} {k : KeyPress} {i : Int}
    (he : NoEmpty t) : NoEmpty (addKeyPressCore reg t c k i) := by
  unfold addKeyPressCore
  split
  · intro m hm hnil
    obtain ⟨m₀, hm₀, rfl⟩ := List.mem_map.mp hm
    have : k ∈ ((if m₀.commandID = c then
        { m₀ with keypresses := insertKey m₀.keypresses i k } else m₀) :
        CommandMapping).keypresses ∨ m₀.keypresses ≠ [] := by
      by_cases h : m₀.commandID = c
      · left
        rw [mem_ite_insert_keys]
        exact Or.inl ⟨rfl, h⟩
      · right
        exact he m₀ hm₀
    rcases this with h | h
    · rw [hnil] at h
      exact absurd h (List.not_mem_nil k)
    · apply h
      by_cases hcond : m₀.commandID = c
      · rw [if_pos hcond] at hnil
        exact absurd hnil insertKey_ne_nil
      · rw [if_neg hcond] at hnil
        exact hnil
  · intro m hm
    rcases List.mem_append.mp hm with hm | hm
    · exact he m hm
    · simp only [List.mem_singleton] at hm
      rw [hm]
      simp

theorem knownCids_core {reg : Registry} {t : Store} {c : CommandID} {k : KeyPress} {i : Int}
    (hk : KnownCids reg t) (hc : (getCommandForID reg c).isSome = true) :
    KnownCids reg (addKeyPressCore reg t c k i) := by
  unfold addKeyPressCore
  split
  · intro m hm
    obtain ⟨m₀, hm₀, rfl⟩ := List.mem_map.mp hm
    rw [ite_insert_cid]
    exact hk m₀ hm₀
  · intro m hm
    rcases List.mem_append.mp hm with hm | hm
    · exact hk m hm
    · simp only [List.mem_singleton] at hm
      rw [hm]
      exact hc

/-! ## `addKeyPress` characterization and invariants -/

theorem boundTo_of_findCommand {s : Store} {k : KeyPress} {c : CommandID}
    (h : findCommandForKeyPress s k = c) (hc : c ≠ 0) : BoundTo s c k := by
  unfold findCommandForKeyPress at h
  cases hfind : s.find? (fun m => decide (k ∈ m.keypresses)) with
  | none =>
      rw [hfind] at h
      exact absurd h.symm hc
  | some m =>
      rw [hfind] at h
      exact boundTo_iff.mpr ⟨m, List.mem_of_find?_eq_some hfind, h,
        by simpa using List.find?_some hfind⟩

theorem boundTo_addKeyPress_self {reg : Registry} {s : Store} {c c' : CommandID}
    {k : KeyPress} {i : Int} (h1 : I1 s) (hc : c ≠ 0) :
    BoundTo (addKeyPress reg s c k i) c' k ↔ c' = c := by
  unfold addKeyPress
  by_cases h0 : findCommandForKeyPress s k = c
  · rw [if_pos h0]
    constructor
    · intro hb
      exact (findCommand_eq_of_boundTo h1 hb).symm.trans h0
    · rintro rfl
      exact boundTo_of_findCommand h0 hc
  · rw [if_neg h0, if_neg hc]
    exact boundTo_core_self (keyUnbound_removeKeyPress s k)

theorem boundTo_addKeyPress_other {reg : Registry} {s : Store} {c c' : CommandID}
    {k k' : KeyPress} {i : Int} (hne : k' ≠ k) :
    BoundTo (addKeyPress reg s c k i) c' k' ↔ BoundTo s c' k' := by
  unfold addKeyPress
  by_cases h0 : findCommandForKeyPress s k = c
  · rw [if_pos h0]
  · rw [if_neg h0]
    by_cases hc : c = 0
    · rw [if_pos hc]
      exact boundTo_removeKeyPress hne
    · rw [if_neg hc]
      exact (boundTo_core_other hne).trans (boundTo_removeKeyPress hne)

theorem keyUnbound_addKeyPress_zero {reg : Registry} {s : Store} {k : KeyPress} {i : Int}
    (hz : NoZero s) : KeyUnbound (addKeyPress reg s 0 k i) k := by
  unfold addKeyPress
  by_cases h0 : findCommandForKeyPress s k = 0
  · rw [if_pos h0]
    exact keyUnbound_of_findCommand_eq_zero hz h0
  · rw [if_neg h0, if_pos rfl]
    exact keyUnbound_removeKeyPress s k

theorem I1_addKeyPress {reg : Registry} {s : Store} {c : CommandID} {k : KeyPress} {i : Int}
    (h1 : I1 s) (h2 : I2 s) : I1 (addKeyPress reg s c k i) := by
  unfold addKeyPress
  by_cases h0 : findCommandForKeyPress s k = c
  · rw [if_pos h0]
    exact h1
  · rw [if_neg h0]
    by_cases hc : c = 0
    · rw [if_pos hc]
      exact I1_removeKeyPress h1 k
    · rw [if_neg hc]
      exact I1_core (I1_removeKeyPress h1 k) (I2_removeKeyPress h2 k)
        (keyUnbound_removeKeyPress s k)

theorem I2_addKeyPress {reg : Registry} {s : Store} {c : CommandID} {k : KeyPress} {i : Int}
    (h2 : I2 s) : I2 (addKeyPress reg s c k i) := by
  unfold addKeyPress
  by_cases h0 : findCommandForKeyPress s k = c
  · rw [if_pos h0]
    exact h2
  · rw [if_neg h0]
    by_cases hc : c = 0
    · rw [if_pos hc]
      exact I2_removeKeyPress h2 k
    · rw [if_neg hc]
      exact I2_core (I2_removeKeyPress h2 k)

theorem noZero_addKeyPress {reg : Registry} {s : Store} {c : CommandID} {k : KeyPress} {i : Int}
    (hz : NoZero s) : NoZero (addKeyPress reg s c k i) := by
  unfold addKeyPress
  by_cases h0 : findCommandForKeyPress s k = c
  · rw [if_pos h0]
    exact hz
  · rw [if_neg h0]
    by_cases hc : c = 0
    · rw [if_pos hc]
      exact noZero_removeKeyPress hz k
    · rw [if_neg hc]
      exact noZero_core (noZero_removeKeyPress hz k) hc

theorem noEmpty_addKeyPress {reg : Registry} {s : Store} {c : CommandID} {k : KeyPress} {i : Int}
    (he : NoEmpty s) : NoEmpty (addKeyPress reg s c k i) := by
  unfold addKeyPress
  by_cases h0 : findCommandForKeyPress s k = c
  · rw [if_pos h0]
    exact he
  · rw [if_neg h0]
    by_cases hc : c = 0
    · rw [if_pos hc]
      exact noEmpty_removeKeyPress s k
    · rw [if_neg hc]
      exact noEmpty_core (noEmpty_removeKeyPress s k)

theorem knownCids_addKeyPress {reg : Registry} {s : Store} {c : CommandID} {k : KeyPress}
    {i : Int} (hk : KnownCids reg s)
    (hc : c = 0 ∨ (getCommandForID reg c).isSome = true) :
    KnownCids reg (addKeyPress reg s c k i) := by
  unfold addKeyPress
  by_cases h0 : findCommandForKeyPress s k = c
  · rw [if_pos h0]
    exact hk
  · rw [if_neg h0]
    by_cases hcz : c = 0
    · rw [if_pos hcz]
      exact knownCids_removeKeyPress hk k
    · rw [if_neg hcz]
      rcases hc with hc | hc
      · exact absurd hc hcz
      · exact knownCids_core (knownCids_removeKeyPress hk k) hc

/-! ## Invariants of `removeKeyPressAt`, nodup keys, and the WF pack -/

theorem mem_dropEmpty_map {s : Store} {g : CommandMapping → CommandMapping}
    {m : CommandMapping} :
    m ∈ dropEmpty (s.map g) ↔ ∃ m₀ ∈ s, m = g m₀ ∧ m.keypresses ≠ [] := by
  simp only [dropEmpty, List.mem_filter, List.mem_map, decide_eq_true_eq]
  constructor
  · rintro ⟨⟨m₀, hm₀, rfl⟩, hne⟩
    exact ⟨m₀, hm₀, rfl, hne⟩
  · rintro ⟨m₀, hm₀, rfl, hne⟩
    exact ⟨⟨m₀, hm₀, rfl⟩, hne⟩

theorem I1_dropEmpty_map {s : Store} {g : CommandMapping → CommandMapping}
    (hg : ∀ m, (g m).keypresses ⊆ m.keypresses) (h : I1 s) :
    I1 (dropEmpty (s.map g)) := by
  unfold dropEmpty
  apply List.Pairwise.sublist (List.filter_sublist _)
  rw [List.pairwise_map]
  refine h.imp ?_
  intro a b hab x hx hxb
  exact hab x (hg a hx) (hg b hxb)

theorem I2_dropEmpty_map {s : Store} {g : CommandMapping → CommandMapping}
    (hg : ∀ m, (g m).commandID = m.commandID) (h : I2 s) :
    I2 (dropEmpty (s.map g)) := by
  unfold dropEmpty I2
  apply List.Nodup.sublist (List.Sublist.map _ (List.filter_sublist _))
  rw [List.map_map]
  have : ((fun m : CommandMapping => m.commandID) ∘ g) =
      fun m : CommandMapping => m.commandID := by
    funext m
    exact hg m
  rw [this]
  exact h

theorem removeAt_keys_subset (cid : CommandID) (idx : Nat) (m : CommandMapping) :
    ((if m.commandID = cid then { m with keypresses := m.keypresses.eraseIdx idx }
      else m) : CommandMapping).keypresses ⊆ m.keypresses := by
  split
  · exact (List.eraseIdx_sublist _ idx).subset
  · exact fun _ h => h

theorem removeAt_cid (cid : CommandID) (idx : Nat) (m : CommandMapping) :
    ((if m.commandID = cid then { m with keypresses := m.keypresses.eraseIdx idx }
      else m) : CommandMapping).commandID = m.commandID := by
  split <;> rfl

theorem I1_removeKeyPressAt {s : Store} (h : I1 s) (cid : CommandID) (idx : Nat) :
    I1 (removeKeyPressAt s cid idx) :=
  I1_dropEmpty_map (removeAt_keys_subset cid idx) h

theorem I2_removeKeyPressAt {s : Store} (h : I2 s) (cid : CommandID) (idx : Nat) :
    I2 (removeKeyPressAt s cid idx) :=
  I2_dropEmpty_map (removeAt_cid cid idx) h

theorem noZero_removeKeyPressAt {s : Store} (h : NoZero s) (cid : CommandID) (idx : Nat) :
    NoZero (removeKeyPressAt s cid idx) := by
  intro m hm
  obtain ⟨m₀, hm₀, rfl, _⟩ := mem_dropEmpty_map.mp hm
  rw [removeAt_cid]
  exact h m₀ hm₀

theorem noEmpty_removeKeyPressAt (s : Store) (cid : CommandID) (idx : Nat) :
    NoEmpty (removeKeyPressAt s cid idx) := by
  intro m hm
  exact (mem_dropEmpty_map.mp hm).choose_spec.2.2

theorem knownCids_removeKeyPressAt {reg : Registry} {s : Store}
    (h : KnownCids reg s) (cid : CommandID) (idx : Nat) :
    KnownCids reg (removeKeyPressAt s cid idx) := by
  intro m hm
  obtain ⟨m₀, hm₀, rfl, _⟩ := mem_dropEmpty_map.mp hm
  rw [removeAt_cid]
  exact h m₀ hm₀

theorem keysNodup_removeKeyPressAt {s : Store} (h : KeysNodup s)
    (cid : CommandID) (idx : Nat) : KeysNodup (removeKeyPressAt s cid idx) := by
  intro m hm
  obtain ⟨m₀, hm₀, rfl, _⟩ := mem_dropEmpty_map.mp hm
  split
  · exact (List.eraseIdx_sublist _ idx).nodup (h m₀ hm₀)
  · exact h m₀ hm₀

theorem keysNodup_removeKeyPress {s : Store} (h : KeysNodup s) (k : KeyPress) :
    KeysNodup (removeKeyPress s k) := by
  intro m hm
  obtain ⟨m₀, hm₀, rfl, _⟩ := mem_removeKeyPress.mp hm
  exact (h m₀ hm₀).filter _

theorem nodup_insertKeyAt {n : Nat} {k : KeyPress} {ks : List KeyPress}
    (h : ks.Nodup) (hk : k ∉ ks) : (insertKeyAt n k ks).Nodup := by
  induction n generalizing ks with
  | zero => exact List.Nodup.cons hk h
  | succ n ih =>
      cases ks with
      | nil => simp [insertKeyAt]
      | cons x xs =>
          rw [insertKeyAt]
          rw [List.nodup_cons] at h ⊢
          refine ⟨?_, ih h.2 (fun hmem => hk (List.mem_cons_of_mem x hmem))⟩
          intro hmem
          rcases mem_insertKeyAt.mp hmem with rfl | hmem
          · exact hk (List.mem_cons_self x xs)
          · exact h.1 hmem

theorem nodup_insertKey {i : Int} {k : KeyPress} {ks : List KeyPress}
    (h : ks.Nodup) (hk : k ∉ ks) : (insertKey ks i k).Nodup := by
  unfold insertKey
  split
  · rw [List.nodup_append]
    refine ⟨h, by simp, ?_⟩
    intro a ha hmem
    simp only [List.mem_singleton] at hmem
    rw [hmem] at ha
    exact hk ha
  · exact nodup_insertKeyAt h hk

theorem keysNodup_core {reg : Registry} {t : Store} {c : CommandID} {k : KeyPress}
    {i : Int} (hn : KeysNodup t) (hu : KeyUnbound t k) :
    KeysNodup (addKeyPressCore reg t c k i) := by
  unfold addKeyPressCore
  split
  · intro m hm
    obtain ⟨m₀, hm₀, rfl⟩ := List.mem_map.mp hm
    split
    · exact nodup_insertKey (hn m₀ hm₀) (hu m₀ hm₀)
    · exact hn m₀ hm₀
  · intro m hm
    rcases List.mem_append.mp hm with hm | hm
    · exact hn m hm
    · simp only [List.mem_singleton] at hm
      rw [hm]
      simp

theorem keysNodup_addKeyPress {reg : Registry} {s : Store} {c : CommandID}
    {k : KeyPress} {i : Int} (hn : KeysNodup s) :
    KeysNodup (addKeyPress reg s c k i) := by
  unfold addKeyPress
  by_cases h0 : findCommandForKeyPress s k = c
  · rw [if_pos h0]
    exact hn
  · rw [if_neg h0]
    by_cases hc : c = 0
    · rw [if_pos hc]
      exact keysNodup_removeKeyPress hn k
    · rw [if_neg hc]
      exact keysNodup_core (keysNodup_removeKeyPress hn k) (keyUnbound_removeKeyPress s k)

theorem wfStore_nil (reg : Registry) : WFStore reg [] := by
  refine ⟨?_, ?_, ?_, ?_, ?_, ?_⟩ <;> simp [I1, I2, NoZero, NoEmpty, KnownCids, KeysNodup]

theorem wfStore_addKeyPress {reg : Registry} {s : Store} {c : CommandID} {k : KeyPress}
    {i : Int} (h : WFStore reg s)
    (hc : c = 0 ∨ (getCommandForID reg c).isSome = true) :
    WFStore reg (addKeyPress reg s c k i) :=
  ⟨I1_addKeyPress h.i1 h.i2, I2_addKeyPress h.i2, noZero_addKeyPress h.noZero,
    noEmpty_addKeyPress h.noEmpty, knownCids_addKeyPress h.known hc,
    keysNodup_addKeyPress h.keysNodup⟩

theorem wfStore_removeKeyPress {reg : Registry} {s : Store} (h : WFStore reg s)
    (k : KeyPress) : WFStore reg (removeKeyPress s k) :=
  ⟨I1_removeKeyPress h.i1 k, I2_removeKeyPress h.i2 k, noZero_removeKeyPress h.noZero k,
    noEmpty_removeKeyPress s k, knownCids_removeKeyPress h.known k,
    keysNodup_removeKeyPress h.keysNodup k⟩

theorem wfStore_removeKeyPressAt {reg : Registry} {s : Store} (h : WFStore reg s)
    (cid : CommandID) (idx : Nat) : WFStore reg (removeKeyPressAt s cid idx) :=
  ⟨I1_removeKeyPressAt h.i1 cid idx, I2_removeKeyPressAt h.i2 cid idx,
    noZero_removeKeyPressAt h.noZero cid idx, noEmpty_removeKeyPressAt s cid idx,
    knownCids_removeKeyPressAt h.known cid idx, keysNodup_removeKeyPressAt h.keysNodup cid idx⟩

theorem wfStore_applyOp {reg : Registry} {s : Store} {op : MapOp}
    (h : WFStore reg s) (hop : OpOk reg op) : WFStore reg (applyOp reg s op) := by
  cases op with
  | assign cid k i => exact wfStore_addKeyPress h hop
  | removeKey k => exact wfStore_removeKeyPress h k
  | removeAt cid idx => exact wfStore_removeKeyPressAt h cid idx

theorem wfStore_applyOps {reg : Registry} {s : Store} {ops : List MapOp}
    (h : WFStore reg s) (hops : ∀ op ∈ ops, OpOk reg op) :
    WFStore reg (applyOps reg s ops) := by
  unfold applyOps
  refine List.foldlRecOn ops (applyOp reg) s h ?_
  intro b hb op hop
  exact wfStore_applyOp hb (hops op hop)

theorem wfStore_reset (reg : Registry) (s : Store) :
    WFStore reg (resetToDefaultMappings reg s) := by
  unfold resetToDefaultMappings
  refine List.foldlRecOn reg _ ([] : Store) (wfStore_nil reg) ?_
  intro b hb ci hci
  refine List.foldlRecOn ci.defaultKeypresses _ b hb ?_
  intro b2 hb2 k _
  refine wfStore_addKeyPress hb2 (Or.inr ?_)
  rw [getCommandForID, List.find?_isSome]
  exact ⟨ci, hci, by simp⟩

/-! ## Key lists per command -/

theorem keysFor_cons_pos {m : CommandMapping} {rest : Store} {c : CommandID}
    (h : m.commandID = c) :
    getKeyPressesAssignedToCommand (m :: rest) c = m.keypresses := by
  simp [getKeyPressesAssignedToCommand, List.find?_cons, h]

theorem keysFor_cons_neg {m : CommandMapping} {rest : Store} {c : CommandID}
    (h : m.commandID ≠ c) :
    getKeyPressesAssignedToCommand (m :: rest) c =
      getKeyPressesAssignedToCommand rest c := by
  unfold getKeyPressesAssignedToCommand
  rw [List.find?_cons, decide_eq_false h]

theorem keysFor_eq_nil_of_not_mem_cids {s : Store} {c : CommandID}
    (h : c ∉ s.map (fun m => m.commandID)) :
    getKeyPressesAssignedToCommand s c = [] := by
  unfold getKeyPressesAssignedToCommand
  have hfind : s.find? (fun m => decide (m.commandID = c)) = none := by
    rw [List.find?_eq_none]
    intro m hm
    simp only [decide_eq_true_eq]
    intro hc
    exact h (List.mem_map.mpr ⟨m, hm, hc⟩)
  rw [hfind]

theorem removeKeyPress_cons (m : CommandMapping) (rest : Store) (k : KeyPress) :
    removeKeyPress (m :: rest) k =
      (if m.keypresses.filter (fun x => decide (x ≠ k)) = [] then ([] : Store)
       else [{ m with keypresses := m.keypresses.filter (fun x => decide (x ≠ k)) }]) ++
        removeKeyPress rest k := by
  unfold removeKeyPress dropEmpty
  rw [List.map_cons, List.filter_cons]
  by_cases hnil : m.keypresses.filter (fun x => decide (x ≠ k)) = []
  · have hdec : (decide (({ m with keypresses := m.keypresses.filter (fun x => decide (x ≠ k)) } : CommandMapping).keypresses ≠ [])) = false := by
      simpa using hnil
    rw [hdec, if_neg Bool.false_ne_true, if_pos hnil, List.nil_append]
  · have hdec : (decide (({ m with keypresses := m.keypresses.filter (fun x => decide (x ≠ k)) } : CommandMapping).keypresses ≠ [])) = true := by
      simpa using hnil
    rw [hdec, if_pos rfl, if_neg hnil, List.singleton_append]

theorem keysFor_removeKeyPress {s : Store} {c : CommandID} {k : KeyPress} (h2 : I2 s) :
    getKeyPressesAssignedToCommand (removeKeyPress s k) c =
      (getKeyPressesAssignedToCommand s c).filter (fun x => decide (x ≠ k)) := by
  induction s with
  | nil => rfl
  | cons m rest ih =>
      have hpack := List.nodup_cons.mp h2
      have h2' : I2 rest := hpack.2
      have hnotin : m.commandID ∉ rest.map (fun x => x.commandID) := hpack.1
      rw [removeKeyPress_cons]
      by_cases hc : m.commandID = c
      · rw [keysFor_cons_pos hc]
        by_cases hnil : m.keypresses.filter (fun x => decide (x ≠ k)) = []
        · rw [if_pos hnil, List.nil_append, hnil]
          apply keysFor_eq_nil_of_not_mem_cids
          intro hmem
          obtain ⟨m2, hm2, hcid⟩ := List.mem_map.mp hmem
          obtain ⟨m₀, hm₀, rfl, _⟩ := mem_removeKeyPress.mp hm2
          exact hnotin (List.mem_map.mpr ⟨m₀, hm₀, hc ▸ hcid⟩)
        · rw [if_neg hnil, List.singleton_append]
          exact keysFor_cons_pos hc
      · rw [keysFor_cons_neg hc]
        by_cases hnil : m.keypresses.filter (fun x => decide (x ≠ k)) = []
        · rw [if_pos hnil, List.nil_append]
          exact ih h2'
        · rw [if_neg hnil, List.singleton_append]
          refine Eq.trans (keysFor_cons_neg ?_) (ih h2')
          exact hc

theorem keysFor_core_other {reg : Registry} {t : Store} {cb ca : CommandID}
    {k : KeyPress} {i : Int} (hne : ca ≠ cb) :
    getKeyPressesAssignedToCommand (addKeyPressCore reg t cb k i) ca =
      getKeyPressesAssignedToCommand t ca := by
  unfold addKeyPressCore
  split
  · unfold getKeyPressesAssignedToCommand
    rw [List.find?_map]
    have hcomp : ((fun m : CommandMapping => decide (m.commandID = ca)) ∘ (fun m =>
        if m.commandID = cb then
          { m with keypresses := insertKey m.keypresses i k }
        else m)) = fun m : CommandMapping => decide (m.commandID = ca) := by
      funext m
      simp only [Function.comp_apply]
      rw [ite_insert_cid]
    rw [hcomp]
    cases hfind : t.find? (fun m => decide (m.commandID = ca)) with
    | none => simp
    | some m =>
        have hcid : m.commandID = ca := by simpa using List.find?_some hfind
        have : (if m.commandID = cb then
            ({ m with keypresses := insertKey m.keypresses i k } : CommandMapping)
          else m) = m := by
          rw [if_neg (by rw [hcid]; exact hne)]
        simp [this]
  · unfold getKeyPressesAssignedToCommand
    rw [List.find?_append]
    cases hfind : t.find? (fun m => decide (m.commandID = ca)) with
    | some m => simp
    | none =>
        simp only [Option.none_or]
        rw [List.find?_cons]
        have : decide ((⟨cb, [k], registryWantsKeyUpDown reg cb⟩ :
            CommandMapping).commandID = ca) = false := by
          simp only [decide_eq_false_iff_not]
          exact fun h => hne h.symm
        rw [this]
        rfl

theorem keysFor_addKeyPress_other {reg : Registry} {s : Store} {cb ca : CommandID}
    {k : KeyPress} {i : Int} (h1 : I1 s) (h2 : I2 s)
    (hbnd : BoundTo s ca k) (hne : ca ≠ cb) (hcb : cb ≠ 0) :
    getKeyPressesAssignedToCommand (addKeyPress reg s cb k i) ca =
      (getKeyPressesAssignedToCommand s ca).filter (fun x => decide (x ≠ k)) := by
  unfold addKeyPress
  have hfind : findCommandForKeyPress s k = ca := findCommand_eq_of_boundTo h1 hbnd
  rw [if_neg (by rw [hfind]; exact hne), if_neg hcb]
  rw [keysFor_core_other hne]
  exact keysFor_removeKeyPress h2

theorem cids_removeKeyPress_subset (s : Store) (k : KeyPress) :
    (removeKeyPress s k).map (fun m => m.commandID) ⊆
      s.map (fun m => m.commandID) := by
  intro c hc
  obtain ⟨m, hm, rfl⟩ := List.mem_map.mp hc
  obtain ⟨m₀, hm₀, rfl, _⟩ := mem_removeKeyPress.mp hm
  exact List.mem_map.mpr ⟨m₀, hm₀, rfl⟩

/-- `addKeyPress` with the sentinel commandId 0 creates no entry: the
resulting commandIds are among the previous ones. -/
theorem cids_addKeyPress_zero_subset (reg : Registry) (s : Store) (k : KeyPress) (i : Int) :
    (addKeyPress reg s 0 k i).map (fun m => m.commandID) ⊆
      s.map (fun m => m.commandID) := by
  unfold addKeyPress
  by_cases h0 : findCommandForKeyPress s k = 0
  · rw [if_pos h0]
    exact fun c hc => hc
  · rw [if_neg h0, if_pos rfl]
    exact cids_removeKeyPress_subset s k

/-! ## Restore helpers -/

theorem applyXmlEntry_unknown {reg : Registry} {base : Store} {e : XmlMapEntry}
    (h : ¬ (getCommandForID reg (entryCid e)).isSome = true) :
    applyXmlEntry reg base e = base := by
  cases e with
  | mapping cid k =>
      simp only [entryCid] at h
      simp only [applyXmlEntry]
      rw [if_neg h]
  | unmapping cid k =>
      simp only [entryCid] at h
      simp only [applyXmlEntry]
      rw [if_neg h]

theorem foldl_applyXmlEntry_known (reg : Registry) (entries : List XmlMapEntry) :
    ∀ base : Store,
      entries.foldl (applyXmlEntry reg) base =
        (entries.filter (fun e => (getCommandForID reg (entryCid e)).isSome)).foldl
          (applyXmlEntry reg) base := by
  induction entries with
  | nil => intro base; rfl
  | cons e rest ih =>
      intro base
      by_cases h : (getCommandForID reg (entryCid e)).isSome = true
      · rw [List.foldl_cons, ih]
        have hfil : (e :: rest).filter (fun e => (getCommandForID reg (entryCid e)).isSome) =
            e :: rest.filter (fun e => (getCommandForID reg (entryCid e)).isSome) := by
          simp [List.filter_cons, h]
        rw [hfil, List.foldl_cons]
      · rw [List.foldl_cons, applyXmlEntry_unknown h, ih]
        have hfil : (e :: rest).filter (fun e => (getCommandForID reg (entryCid e)).isSome) =
            rest.filter (fun e => (getCommandForID reg (entryCid e)).isSome) := by
          simp [List.filter_cons, h]
        rw [hfil]

/-- Fold preservation of an invariant. -/
theorem foldl_invariant {α β : Type _} (P : β → Prop) (f : β → α → β)
    (l : List α) (b : β) (hb : P b) (hstep : ∀ t x, P t → P (f t x)) :
    P (l.foldl f b) := by
  induction l generalizing b with
  | nil => exact hb
  | cons x xs ih => exact ih (f b x) (hstep b x hb)

/-! ## The claims -/

/-- C1 (invariant I1, global binding uniqueness): starting from any store
that satisfies the two store invariants every reachable store enjoys
(I1, uniqueness of keys across entries, and I2, uniqueness of
commandIds — see `wfStore_reset` and `wfStore_applyOps` for reachability),
after any finite sequence of `addKeyPress` calls no KeyCombination
appears in the key sequence of more than one CommandBinding. -/
theorem c1_assign_sequence_uniqueness (reg : Registry) (s : Store)
    (ops : List (CommandID × KeyPress × Int)) (h1 : I1 s) (h2 : I2 s) :
    I1 (ops.foldl (fun acc o => addKeyPress reg acc o.1 o.2.1 o.2.2) s) := by
  suffices h : I1 (ops.foldl (fun acc o => addKeyPress reg acc o.1 o.2.1 o.2.2) s) ∧
      I2 (ops.foldl (fun acc o => addKeyPress reg acc o.1 o.2.1 o.2.2) s) from h.1
  refine foldl_invariant (fun t => I1 t ∧ I2 t) _ ops s ⟨h1, h2⟩ ?_
  intro t o hp
  exact ⟨I1_addKeyPress hp.1 hp.2, I2_addKeyPress hp.2⟩

/-- Witness for C1: a concrete store and assign sequence, with both
hypotheses discharged by evaluation. -/
theorem c1_assign_sequence_uniqueness_witness :
    I1 ([⟨5, [⟨1, 0⟩], false⟩] : Store) ∧ I2 ([⟨5, [⟨1, 0⟩], false⟩] : Store) ∧
    I1 (([((3 : CommandID), (⟨2, 2⟩ : KeyPress), (-1 : Int)),
          ((4 : CommandID), (⟨1, 0⟩ : KeyPress), (0 : Int))]).foldl
      (fun acc o => addKeyPress ([⟨3, [], 4⟩] : Registry) acc o.1 o.2.1 o.2.2)
      ([⟨5, [⟨1, 0⟩], false⟩] : Store)) :=
  ⟨by decide, by decide,
    c1_assign_sequence_uniqueness ([⟨3, [], 4⟩] : Registry) ([⟨5, [⟨1, 0⟩], false⟩] : Store)
      [((3 : CommandID), (⟨2, 2⟩ : KeyPress), (-1 : Int)),
       ((4 : CommandID), (⟨1, 0⟩ : KeyPress), (0 : Int))] (by decide) (by decide)⟩

/-- C4 (reassignment): if key `k` is bound to command `ca` and
`addKeyPress cb k` is called with `cb ≠ ca`, `cb ≠ 0`, then afterwards
`k` is in `cb`'s key list and absent from `ca`'s, `ca`'s key list is its
old list with exactly `k` filtered out (all other keys untouched, in
order), bindings of every other key are unchanged; and
`addKeyPress 0 k` only strips `k` and creates no entry. -/
theorem c4_reassignment (reg : Registry) (s : Store) (ca cb : CommandID)
    (k : KeyPress) (i : Int) (h1 : I1 s) (h2 : I2 s) (hz : NoZero s)
    (hbnd : BoundTo s ca k) (hne : cb ≠ ca) (hcb : cb ≠ 0) :
    BoundTo (addKeyPress reg s cb k i) cb k ∧
    ¬ BoundTo (addKeyPress reg s cb k i) ca k ∧
    getKeyPressesAssignedToCommand (addKeyPress reg s cb k i) ca =
      (getKeyPressesAssignedToCommand s ca).filter (fun x => decide (x ≠ k)) ∧
    (∀ c x, x ≠ k → (BoundTo (addKeyPress reg s cb k i) c x ↔ BoundTo s c x)) ∧
    KeyUnbound (addKeyPress reg s 0 k i) k ∧
    (addKeyPress reg s 0 k i).map (fun m => m.commandID) ⊆
      s.map (fun m => m.commandID) := by
  refine ⟨(boundTo_addKeyPress_self h1 hcb).mpr rfl, ?_,
    keysFor_addKeyPress_other h1 h2 hbnd (Ne.symm hne) hcb,
    fun c x hx => boundTo_addKeyPress_other hx,
    keyUnbound_addKeyPress_zero hz,
    cids_addKeyPress_zero_subset reg s k i⟩
  intro hcon
  exact hne ((boundTo_addKeyPress_self h1 hcb).mp hcon).symm

/-- Witness for C4: concrete registry and store where key ⟨1,0⟩ moves from
command 7 to command 9. -/
theorem c4_reassignment_witness :
    BoundTo (addKeyPress ([⟨9, [], 0⟩] : Registry)
        ([⟨7, [⟨1, 0⟩, ⟨2, 0⟩], false⟩] : Store) 9 ⟨1, 0⟩ (-1)) 9 ⟨1, 0⟩ ∧
    ¬ BoundTo (addKeyPress ([⟨9, [], 0⟩] : Registry)
        ([⟨7, [⟨1, 0⟩, ⟨2, 0⟩], false⟩] : Store) 9 ⟨1, 0⟩ (-1)) 7 ⟨1, 0⟩ ∧
    getKeyPressesAssignedToCommand (addKeyPress ([⟨9, [], 0⟩] : Registry)
        ([⟨7, [⟨1, 0⟩, ⟨2, 0⟩], false⟩] : Store) 9 ⟨1, 0⟩ (-1)) 7 =
      (getKeyPressesAssignedToCommand ([⟨7, [⟨1, 0⟩, ⟨2, 0⟩], false⟩] : Store) 7).filter
        (fun x => decide (x ≠ ⟨1, 0⟩)) ∧
    (∀ c x, x ≠ ⟨1, 0⟩ →
      (BoundTo (addKeyPress ([⟨9, [], 0⟩] : Registry)
          ([⟨7, [⟨1, 0⟩, ⟨2, 0⟩], false⟩] : Store) 9 ⟨1, 0⟩ (-1)) c x ↔
        BoundTo ([⟨7, [⟨1, 0⟩, ⟨2, 0⟩], false⟩] : Store) c x)) ∧
    KeyUnbound (addKeyPress ([⟨9, [], 0⟩] : Registry)
        ([⟨7, [⟨1, 0⟩, ⟨2, 0⟩], false⟩] : Store) 0 ⟨1, 0⟩ (-1)) ⟨1, 0⟩ ∧
    (addKeyPress ([⟨9, [], 0⟩] : Registry)
        ([⟨7, [⟨1, 0⟩, ⟨2, 0⟩], false⟩] : Store) 0 ⟨1, 0⟩ (-1)).map (fun m => m.commandID) ⊆
      ([⟨7, [⟨1, 0⟩, ⟨2, 0⟩], false⟩] : Store).map (fun m => m.commandID) :=
  c4_reassignment ([⟨9, [], 0⟩] : Registry) ([⟨7, [⟨1, 0⟩, ⟨2, 0⟩], false⟩] : Store)
    7 9 ⟨1, 0⟩ (-1) (by decide) (by decide) (by decide) (by decide) (by decide) (by decide)

/-- C7 (restore atomicity on malformed input): a document whose root
structure is not this component's persisted format makes `restoreFromXml`
return `false` with the Binding Store exactly as it was. -/
theorem c7_restore_malformed (reg : Registry) (s : Store) (xml : XmlElement)
    (h : xml.tagName ≠ keymapRootTag) : restoreFromXml reg s xml = (false, s) := by
  unfold restoreFromXml
  rw [if_neg h]

/-- Witness for C7 at a concrete malformed document. -/
theorem c7_restore_malformed_witness :
    restoreFromXml ([] : Registry) ([⟨7, [⟨1, 0⟩], false⟩] : Store)
      ⟨"NOTKEYMAPPINGS", true, [XmlMapEntry.mapping 7 ⟨1, 0⟩]⟩ =
      (false, ([⟨7, [⟨1, 0⟩], false⟩] : Store)) :=
  c7_restore_malformed ([] : Registry) ([⟨7, [⟨1, 0⟩], false⟩] : Store)
    ⟨"NOTKEYMAPPINGS", true, [XmlMapEntry.mapping 7 ⟨1, 0⟩]⟩ (by decide)

/-- C8 (forward compatibility of restore): every well-formed document
restores with `true`, and the restore result is the same as restoring
the document with the unknown-commandId entries deleted — those entries
are skipped silently while every recognized entry is still applied. -/
theorem c8_restore_forward_compat (reg : Registry) (s : Store) (b : Bool)
    (entries : List XmlMapEntry) :
    (restoreFromXml reg s ⟨keymapRootTag, b, entries⟩).1 = true ∧
    restoreFromXml reg s ⟨keymapRootTag, b, entries⟩ =
      restoreFromXml reg s ⟨keymapRootTag, b,
        entries.filter (fun e => (getCommandForID reg (entryCid e)).isSome)⟩ := by
  constructor
  · unfold restoreFromXml
    rw [if_pos rfl]
  · unfold restoreFromXml
    rw [if_pos rfl, if_pos rfl]
    rw [foldl_applyXmlEntry_known]

/-- C9 (idempotence of reset): `resetToDefaultMappings` discards the
current store and rebuilds from the registry, so running it twice gives
exactly the store of running it once. -/
theorem c9_reset_idempotent (reg : Registry) (s : Store) :
    resetToDefaultMappings reg (resetToDefaultMappings reg s) =
      resetToDefaultMappings reg s := rfl

/-- C10 (zero as the "no command" sentinel): on any store with no entry
for commandId 0 (true of every reachable store, see `wfStore_applyOps`),
`findCommandForKeyPress` returns 0 exactly for unbound keys;
`addKeyPress` never stores commandId 0, and `addKeyPress` with
commandID 0 only unbinds its key and creates no entry. -/
theorem c10_zero_sentinel (reg : Registry) (s : Store) (k : KeyPress) (hz : NoZero s) :
    (findCommandForKeyPress s k = 0 ↔ KeyUnbound s k) ∧
    (∀ cid k2 i, NoZero (addKeyPress reg s cid k2 i)) ∧
    (∀ k2 i, KeyUnbound (addKeyPress reg s 0 k2 i) k2) ∧
    (∀ k2 i, (addKeyPress reg s 0 k2 i).map (fun m => m.commandID) ⊆
      s.map (fun m => m.commandID)) :=
  ⟨⟨keyUnbound_of_findCommand_eq_zero hz, findCommand_eq_zero_of_unbound⟩,
    fun _ _ _ => noZero_addKeyPress hz,
    fun _ _ => keyUnbound_addKeyPress_zero hz,
    fun k2 i => cids_addKeyPress_zero_subset reg s k2 i⟩

/-- Witness for C10 at a concrete store. -/
theorem c10_zero_sentinel_witness :
    (findCommandForKeyPress ([⟨7, [⟨1, 0⟩], false⟩] : Store) ⟨2, 0⟩ = 0 ↔
      KeyUnbound ([⟨7, [⟨1, 0⟩], false⟩] : Store) ⟨2, 0⟩) ∧
    (∀ cid k2 i, NoZero (addKeyPress ([] : Registry) ([⟨7, [⟨1, 0⟩], false⟩] : Store) cid k2 i)) ∧
    (∀ k2 i, KeyUnbound (addKeyPress ([] : Registry) ([⟨7, [⟨1, 0⟩], false⟩] : Store) 0 k2 i) k2) ∧
    (∀ k2 i, (addKeyPress ([] : Registry) ([⟨7, [⟨1, 0⟩], false⟩] : Store) 0 k2 i).map
        (fun m => m.commandID) ⊆ ([⟨7, [⟨1, 0⟩], false⟩] : Store).map (fun m => m.commandID)) :=
  c10_zero_sentinel ([] : Registry) ([⟨7, [⟨1, 0⟩], false⟩] : Store) ⟨2, 0⟩ (by decide)

/-! ## Live key-state tracker lemmas -/

theorem keyPressed_invs (st : MappingEngine) (k : KeyPress) (now : Nat) :
    (keyPressed st k now).2 = [] ∨
    (keyPressed st k now).2 = [⟨findCommandForKeyPress st.mappings k, k, true, 0⟩] := by
  unfold keyPressed
  split
  · exact Or.inl rfl
  · split
    · exact Or.inl rfl
    · split
      · exact Or.inr rfl
      · exact Or.inr rfl

theorem keyPressed_keysDown (st : MappingEngine) (k : KeyPress) (now : Nat) :
    (keyPressed st k now).1.keysDown = st.keysDown ∨
    (keyPressed st k now).1.keysDown = st.keysDown ++ [⟨k, now⟩] := by
  unfold keyPressed
  split
  · exact Or.inl rfl
  · split
    · exact Or.inl rfl
    · split
      · exact Or.inr rfl
      · exact Or.inl rfl

theorem keyStateChanged_mem_invs {st : MappingEngine} {physDown : KeyPress → Bool}
    {now : Nat} {inv : Invocation}
    (h : inv ∈ (keyStateChanged st physDown now).2) :
    inv.isKeyDown = false ∧ ∃ r ∈ st.keysDown, inv.key = r.key := by
  unfold keyStateChanged at h
  simp only [List.mem_filterMap, List.mem_filter] at h
  obtain ⟨r, ⟨hr, _⟩, hinv⟩ := h
  by_cases hz : findCommandForKeyPress st.mappings r.key = 0
  · rw [if_pos hz] at hinv
    exact absurd hinv (by simp)
  · rw [if_neg hz] at hinv
    have := Option.some_injective _ hinv
    rw [← this]
    exact ⟨rfl, r, hr, rfl⟩

theorem keyStateChanged_keysDown_subset (st : MappingEngine) (physDown : KeyPress → Bool)
    (now : Nat) {r : KeyPressTime}
    (h : r ∈ (keyStateChanged st physDown now).1.keysDown) : r ∈ st.keysDown := by
  unfold keyStateChanged at h
  exact (List.mem_filter.mp h).1

/-- If the engine holds no record for `k` and the events deliver no
key-down of `k`, no release invocation for `k` is ever issued. -/
theorem no_release_for_unrecorded (es : List KeyEvent) : ∀ st : MappingEngine,
    ∀ k : KeyPress, (∀ r ∈ st.keysDown, r.key ≠ k) → noDownFor k es = true →
    ∀ inv ∈ (runEvents st es).2, inv.isKeyDown = false → inv.key ≠ k := by
  induction es with
  | nil =>
      intro st k _ _ inv hinv
      simp [runEvents] at hinv
  | cons e rest ih =>
      intro st k hrec hdown inv hinv hrel
      simp only [runEvents, List.mem_append] at hinv
      cases e with
      | down k2 t =>
          simp only [noDownFor, List.all_cons, Bool.and_eq_true] at hdown
          have hk2 : k2 ≠ k := by simpa using hdown.1
          have hrest : noDownFor k rest = true := hdown.2
          rcases hinv with hinv | hinv
          · simp only [stepEvent] at hinv
            rcases keyPressed_invs st k2 t with hcase | hcase
            · rw [hcase] at hinv
              exact absurd hinv (by simp)
            · rw [hcase] at hinv
              simp only [List.mem_singleton] at hinv
              rw [hinv] at hrel
              exact absurd hrel (by simp)
          · refine ih (stepEvent st (KeyEvent.down k2 t)).1 k ?_ hrest inv hinv hrel
            intro r hr
            simp only [stepEvent] at hr
            rcases keyPressed_keysDown st k2 t with hcase | hcase
            · rw [hcase] at hr
              exact hrec r hr
            · rw [hcase] at hr
              rcases List.mem_append.mp hr with hr | hr
              · exact hrec r hr
              · simp only [List.mem_singleton] at hr
                rw [hr]
                exact hk2
      | stateChanged phys t =>
          simp only [noDownFor, List.all_cons, Bool.and_eq_true] at hdown
          have hrest : noDownFor k rest = true := hdown.2
          rcases hinv with hinv | hinv
          · simp only [stepEvent] at hinv
            obtain ⟨_, r, hr, hkey⟩ := keyStateChanged_mem_invs hinv
            rw [hkey]
            exact hrec r hr
          · refine ih _ k ?_ hrest inv hinv hrel
            intro r hr
            simp only [stepEvent] at hr
            exact hrec r (keyStateChanged_keysDown_subset st _ t hr)
      | focusChanged =>
          simp only [noDownFor, List.all_cons, Bool.and_eq_true] at hdown
          have hrest : noDownFor k rest = true := hdown.2
          rcases hinv with hinv | hinv
          · simp only [stepEvent, globalFocusChanged] at hinv
            exact absurd hinv (by simp)
          · refine ih _ k ?_ hrest inv hinv hrel
            intro r hr
            simp only [stepEvent, globalFocusChanged] at hr
            exact absurd hr (by simp)

/-- C6 (focus-change reset never emits a release): whatever keys were held
(`st.keysDown` arbitrary), a focus-change event destroys all held-key
records while invoking no command, and if the key is then physically
released — indeed in any continuation that contains no further key-down
of that key — no release invocation for it is ever issued. -/
theorem c6_focus_reset_no_release (st : MappingEngine) (es : List KeyEvent) (k : KeyPress)
    (hdown : noDownFor k es = true) :
    globalFocusChanged st = ({ st with keysDown := [] }, []) ∧
    ∀ inv ∈ (runEvents st (KeyEvent.focusChanged :: es)).2,
      inv.isKeyDown = false → inv.key ≠ k := by
  refine ⟨rfl, ?_⟩
  intro inv hinv hrel
  simp only [runEvents, stepEvent, globalFocusChanged, List.nil_append] at hinv
  refine no_release_for_unrecorded es _ k ?_ hdown inv hinv hrel
  intro r hr
  exact absurd hr (by simp)

/-- Witness for C6: a key held with a live record, focus change, then the
physical release of that key: the run produces no release invocation. -/
theorem c6_focus_reset_no_release_witness :
    noDownFor ⟨1, 0⟩ [KeyEvent.stateChanged [] 10] = true ∧
    (globalFocusChanged ⟨[⟨7, [⟨1, 0⟩], true⟩], [⟨⟨1, 0⟩, 5⟩]⟩ =
      ({ mappings := [⟨7, [⟨1, 0⟩], true⟩], keysDown := [] }, []) ∧
    ∀ inv ∈ (runEvents ⟨[⟨7, [⟨1, 0⟩], true⟩], [⟨⟨1, 0⟩, 5⟩]⟩
        (KeyEvent.focusChanged :: [KeyEvent.stateChanged [] 10])).2,
      inv.isKeyDown = false → inv.key ≠ ⟨1, 0⟩) :=
  ⟨by decide,
    c6_focus_reset_no_release ⟨[⟨7, [⟨1, 0⟩], true⟩], [⟨⟨1, 0⟩, 5⟩]⟩
      [KeyEvent.stateChanged [] 10] ⟨1, 0⟩ (by decide)⟩

theorem keyPressed_repeat {st : MappingEngine} {k : KeyPress} {now : Nat}
    (h : st.keysDown.any (fun r => decide (r.key = k)) = true) :
    keyPressed st k now = (st, []) := by
  unfold keyPressed
  by_cases h0 : findCommandForKeyPress st.mappings k = 0
  · rw [if_pos h0]
  · rw [if_neg h0, if_pos h]

theorem runEvents_repeat {st : MappingEngine} {k : KeyPress}
    (h : st.keysDown.any (fun r => decide (r.key = k)) = true) (ts : List Nat) :
    runEvents st (ts.map (fun t => KeyEvent.down k t)) = (st, []) := by
  induction ts with
  | nil => rfl
  | cons t ts ih =>
      rw [List.map_cons]
      show ((runEvents (stepEvent st (KeyEvent.down k t)).1 _).1,
        (stepEvent st (KeyEvent.down k t)).2 ++ _) = (st, [])
      simp only [stepEvent, keyPressed_repeat h]
      rw [ih]
      rfl

theorem runEvents_append (st : MappingEngine) (l1 l2 : List KeyEvent) :
    runEvents st (l1 ++ l2) =
      ((runEvents (runEvents st l1).1 l2).1,
        (runEvents st l1).2 ++ (runEvents (runEvents st l1).1 l2).2) := by
  induction l1 generalizing st with
  | nil => simp [runEvents]
  | cons e l1 ih =>
      rw [List.cons_append]
      show ((runEvents (stepEvent st e).1 (l1 ++ l2)).1,
          (stepEvent st e).2 ++ (runEvents (stepEvent st e).1 (l1 ++ l2)).2) = _
      rw [ih]
      show _ = ((runEvents (runEvents (stepEvent st e).1 l1).1 l2).1,
        ((stepEvent st e).2 ++ (runEvents (stepEvent st e).1 l1).2) ++
          (runEvents (runEvents (stepEvent st e).1 l1).1 l2).2)
      rw [List.append_assoc]

/-- C5 (press/release pairing): with no keys held, a binding for `k` to a
nonzero command `c` that wants press/release pairing, a key-down at `t1`,
any number of repeated down events (key repeat), and then the physical
release of `k` observed at `t2 ≥ t1`, produce exactly two invocations —
one press then one release whose elapsed time is exactly the gap
`t2 - t1` (so `elapsed + t1 = t2`, nonnegative by construction) — and
after the down events exactly one held-key record for `k` exists. -/
theorem c5_press_release_pairing (st : MappingEngine) (c : CommandID) (k : KeyPress)
    (t1 t2 : Nat) (ts : List Nat) (physd : List KeyPress)
    (hdown : st.keysDown = []) (hfind : findCommandForKeyPress st.mappings k = c)
    (hc : c ≠ 0) (hw : wantsPairFor st.mappings k = true) (ht : t1 ≤ t2)
    (hk : k ∉ physd) :
    (runEvents st (KeyEvent.down k t1 :: (ts.map (fun t => KeyEvent.down k t) ++
        [KeyEvent.stateChanged physd t2]))).2 =
      [⟨c, k, true, 0⟩, ⟨c, k, false, t2 - t1⟩] ∧
    recordsFor (runEvents st
        (KeyEvent.down k t1 :: ts.map (fun t => KeyEvent.down k t))).1 k = 1 ∧
    (t2 - t1) + t1 = t2 := by
  have h1 : keyPressed st k t1 = ({ st with keysDown := [⟨k, t1⟩] }, [⟨c, k, true, 0⟩]) := by
    unfold keyPressed
    rw [hfind, if_neg hc, hdown, List.any_nil, if_neg Bool.false_ne_true, if_pos hw,
      List.nil_append]
  have hany : (({ st with keysDown := [⟨k, t1⟩] } : MappingEngine)).keysDown.any
      (fun r => decide (r.key = k)) = true := by simp
  have hrep := runEvents_repeat hany ts
  have h3 : keyStateChanged ({ st with keysDown := [⟨k, t1⟩] } : MappingEngine)
      (fun k2 => decide (k2 ∈ physd)) t2 =
      ({ st with keysDown := [] }, [⟨c, k, false, t2 - t1⟩]) := by
    have hdk : decide (k ∈ physd) = false := by simpa using hk
    simp [keyStateChanged, hdk, hfind, hc]
  refine ⟨?_, ?_, Nat.sub_add_cancel ht⟩
  · show ((runEvents (stepEvent st (KeyEvent.down k t1)).1 _).1,
      (stepEvent st (KeyEvent.down k t1)).2 ++ _).2 = _
    simp only [stepEvent, h1]
    rw [runEvents_append, hrep]
    show [⟨c, k, true, 0⟩] ++ ([] ++ (runEvents _ [KeyEvent.stateChanged physd t2]).2) = _
    simp only [runEvents, stepEvent, h3]
    rfl
  · show recordsFor ((runEvents (stepEvent st (KeyEvent.down k t1)).1 _).1,
      (stepEvent st (KeyEvent.down k t1)).2 ++ _).1 k = 1
    simp only [stepEvent, h1]
    rw [hrep]
    simp [recordsFor]

/-- Witness for C5 at a concrete engine, with two key-repeat events and a
release five ticks later. -/
theorem c5_press_release_pairing_witness :
    (runEvents ⟨[⟨7, [⟨1, 0⟩], true⟩], []⟩ (KeyEvent.down ⟨1, 0⟩ 5 ::
        (([6, 7] : List Nat).map (fun t => KeyEvent.down ⟨1, 0⟩ t) ++
          [KeyEvent.stateChanged [] 10]))).2 =
      [⟨7, ⟨1, 0⟩, true, 0⟩, ⟨7, ⟨1, 0⟩, false, 5⟩] ∧
    recordsFor (runEvents ⟨[⟨7, [⟨1, 0⟩], true⟩], []⟩
        (KeyEvent.down ⟨1, 0⟩ 5 :: ([6, 7] : List Nat).map
          (fun t => KeyEvent.down ⟨1, 0⟩ t))).1 ⟨1, 0⟩ = 1 ∧
    (10 - 5) + 5 = 10 :=
  c5_press_release_pairing ⟨[⟨7, [⟨1, 0⟩], true⟩], []⟩ 7 ⟨1, 0⟩ 5 10 [6, 7] []
    (by decide) (by decide) (by decide) (by decide) (by decide) (by decide)

/-! ## Full-mode round trip (C3) -/

theorem insertKey_neg {ks : List KeyPress} {i : Int} {k : KeyPress} (h : i < 0) :
    insertKey ks i k = ks ++ [k] := by
  unfold insertKey
  rw [if_pos h]

theorem keyUnbound_append {s1 s2 : Store} {k : KeyPress}
    (h1 : KeyUnbound s1 k) (h2 : KeyUnbound s2 k) : KeyUnbound (s1 ++ s2) k := by
  intro m hm
  rcases List.mem_append.mp hm with hm | hm
  · exact h1 m hm
  · exact h2 m hm

/-- Assigning a fresh key of a fresh command appends a new singleton entry. -/
theorem addKeyPress_fresh_append (reg : Registry) (acc : Store) (cid : CommandID)
    (k : KeyPress) (hub : KeyUnbound acc k) (hemp : NoEmpty acc) (h0 : cid ≠ 0)
    (hcid : ∀ m₀ ∈ acc, m₀.commandID ≠ cid) :
    addKeyPress reg acc cid k (-1) =
      acc ++ [⟨cid, [k], registryWantsKeyUpDown reg cid⟩] := by
  unfold addKeyPress
  have hf : findCommandForKeyPress acc k = 0 := findCommand_eq_zero_of_unbound hub
  rw [hf, if_neg (fun h => h0 h.symm), if_neg h0, removeKeyPress_eq_self hub hemp]
  unfold addKeyPressCore
  have hany : acc.any (fun m => decide (m.commandID = cid)) = false := by
    rw [List.any_eq_false]
    intro m hm
    simpa using hcid m hm
  rw [hany, if_neg Bool.false_ne_true]

/-- Assigning a fresh key of the last entry's command appends the key to
that entry. -/
theorem addKeyPress_into_last (reg : Registry) (acc : Store) (cid : CommandID)
    (k : KeyPress) (done : List KeyPress) (fl : Bool)
    (hub : KeyUnbound acc k) (hkdone : k ∉ done) (hemp : NoEmpty acc)
    (hdne : done ≠ []) (h0 : cid ≠ 0) (hcid : ∀ m₀ ∈ acc, m₀.commandID ≠ cid) :
    addKeyPress reg (acc ++ [⟨cid, done, fl⟩]) cid k (-1) =
      acc ++ [⟨cid, done ++ [k], fl⟩] := by
  have hubB : KeyUnbound (acc ++ [⟨cid, done, fl⟩]) k := by
    refine keyUnbound_append hub ?_
    intro m hm
    simp only [List.mem_singleton] at hm
    rw [hm]
    exact hkdone
  have hempB : NoEmpty (acc ++ [⟨cid, done, fl⟩]) := by
    intro m hm
    rcases List.mem_append.mp hm with hm | hm
    · exact hemp m hm
    · simp only [List.mem_singleton] at hm
      rw [hm]
      exact hdne
  unfold addKeyPress
  have hf : findCommandForKeyPress (acc ++ [⟨cid, done, fl⟩]) k = 0 :=
    findCommand_eq_zero_of_unbound hubB
  rw [hf, if_neg (fun h => h0 h.symm), if_neg h0, removeKeyPress_eq_self hubB hempB]
  unfold addKeyPressCore
  have hany : ((acc ++ [⟨cid, done, fl⟩] : Store)).any (fun m => decide (m.commandID = cid)) = true := by
    rw [List.any_eq_true]
    exact ⟨(⟨cid, done, fl⟩ : CommandMapping), List.mem_append_right _ (by simp), by simp⟩
  rw [if_pos hany, List.map_append]
  have hacc : acc.map (fun m =>
      if m.commandID = cid then
        { m with keypresses := insertKey m.keypresses (-1) k }
      else m) = acc := by
    have : ∀ m ∈ acc, (if m.commandID = cid then
        ({ m with keypresses := insertKey m.keypresses (-1) k } : CommandMapping)
      else m) = m := by
      intro m hm
      rw [if_neg (hcid m hm)]
    calc acc.map _ = acc.map id := List.map_congr_left this
      _ = acc := List.map_id acc
  rw [hacc]
  have hone : ([⟨cid, done, fl⟩] : Store).map (fun m =>
      if m.commandID = cid then
        { m with keypresses := insertKey m.keypresses (-1) k }
      else m) = [⟨cid, done ++ [k], fl⟩] := by
    rw [List.map_cons, List.map_nil, if_pos rfl, insertKey_neg (by norm_num)]
  rw [hone]

/-- Replaying the remaining keys of one entry onto a store ending with a
partially rebuilt entry completes that entry. -/
theorem rebuild_one (reg : Registry) (acc : Store) (cid : CommandID) (fl : Bool) :
    ∀ todo done : List KeyPress,
    cid ≠ 0 → (∀ m₀ ∈ acc, m₀.commandID ≠ cid) → NoEmpty acc →
    (getCommandForID reg cid).isSome = true →
    (∀ x ∈ todo, KeyUnbound acc x) → done ≠ [] → (done ++ todo).Nodup →
    (todo.map (XmlMapEntry.mapping cid)).foldl (applyXmlEntry reg)
        (acc ++ [⟨cid, done, fl⟩]) = acc ++ [⟨cid, done ++ todo, fl⟩] := by
  intro todo
  induction todo with
  | nil =>
      intro done _ _ _ _ _ _ _
      simp
  | cons k todo2 ih =>
      intro done h0 hcid hemp hk hub hdne hnd
      have hnd2 : ((done ++ [k]) ++ todo2).Nodup := by
        rw [← List.append_cons]
        exact hnd
      have hkdone : k ∉ done := by
        rcases List.nodup_append.mp hnd with ⟨_, _, hdisj⟩
        intro hcon
        exact hdisj hcon (by simp)
      rw [List.map_cons, List.foldl_cons]
      have happ : applyXmlEntry reg (acc ++ [⟨cid, done, fl⟩]) (XmlMapEntry.mapping cid k) =
          acc ++ [⟨cid, done ++ [k], fl⟩] := by
        simp only [applyXmlEntry]
        rw [if_pos hk]
        exact addKeyPress_into_last reg acc cid k done fl
          (hub k (List.mem_cons_self k todo2)) hkdone hemp hdne h0 hcid
      rw [happ]
      rw [ih (done ++ [k]) h0 hcid hemp hk
        (fun x hx => hub x (List.mem_cons_of_mem k hx)) (by simp) hnd2]
      rw [← List.append_cons]

/-- Replaying all keys of one well-formed fresh entry appends that entry
(with its pairing flag recomputed from the registry). -/
theorem rebuild_entry (reg : Registry) (acc : Store) (m : CommandMapping)
    (h0 : m.commandID ≠ 0) (hk : (getCommandForID reg m.commandID).isSome = true)
    (hne : m.keypresses ≠ []) (hnd : m.keypresses.Nodup)
    (hub : ∀ x ∈ m.keypresses, KeyUnbound acc x)
    (hcid : ∀ m₀ ∈ acc, m₀.commandID ≠ m.commandID) (hemp : NoEmpty acc) :
    (m.keypresses.map (XmlMapEntry.mapping m.commandID)).foldl (applyXmlEntry reg) acc =
      acc ++ [⟨m.commandID, m.keypresses, registryWantsKeyUpDown reg m.commandID⟩] := by
  obtain ⟨k, rest, hkeys⟩ := List.exists_cons_of_ne_nil hne
  rw [hkeys] at hnd hub ⊢
  rw [List.map_cons, List.foldl_cons]
  have happ : applyXmlEntry reg acc (XmlMapEntry.mapping m.commandID k) =
      acc ++ [⟨m.commandID, [k], registryWantsKeyUpDown reg m.commandID⟩] := by
    simp only [applyXmlEntry]
    rw [if_pos hk]
    exact addKeyPress_fresh_append reg acc m.commandID k
      (hub k (List.mem_cons_self k rest)) hemp h0 hcid
  rw [happ]
  rw [rebuild_one reg acc m.commandID (registryWantsKeyUpDown reg m.commandID) rest [k]
    h0 hcid hemp hk (fun x hx => hub x (List.mem_cons_of_mem k hx)) (by simp)
    (by rw [List.singleton_append]; exact hnd)]
  rw [List.singleton_append]

/-- Stores with the same commandId and key-list projections satisfy the
same store invariants. -/
theorem wfStore_of_proj_eq {reg : Registry} {s s2 : Store}
    (hproj : s.map (fun m => (m.commandID, m.keypresses)) =
      s2.map (fun m => (m.commandID, m.keypresses)))
    (h : WFStore reg s) : WFStore reg s2 := by
  have hmem : ∀ m2 ∈ s2, ∃ m ∈ s, m.commandID = m2.commandID ∧ m.keypresses = m2.keypresses := by
    intro m2 hm2
    have hp : (m2.commandID, m2.keypresses) ∈
        s2.map (fun m => (m.commandID, m.keypresses)) :=
      List.mem_map_of_mem _ hm2
    rw [← hproj] at hp
    obtain ⟨m, hm, heq⟩ := List.mem_map.mp hp
    rw [Prod.mk.injEq] at heq
    exact ⟨m, hm, heq.1, heq.2⟩
  refine ⟨?_, ?_, ?_, ?_, ?_, ?_⟩
  · have h1 : List.Pairwise (fun p q : CommandID × List KeyPress => ∀ k ∈ p.2, k ∉ q.2)
        (s.map (fun m => (m.commandID, m.keypresses))) := List.pairwise_map.mpr h.i1
    rw [hproj] at h1
    exact List.pairwise_map.mp h1
  · have h2 : ((s.map (fun m => (m.commandID, m.keypresses))).map Prod.fst).Nodup := by
      rw [List.map_map]
      exact h.i2
    rw [hproj, List.map_map] at h2
    exact h2
  · intro m2 hm2
    obtain ⟨m, hm, hcid, _⟩ := hmem m2 hm2
    rw [← hcid]
    exact h.noZero m hm
  · intro m2 hm2
    obtain ⟨m, hm, _, hkeys⟩ := hmem m2 hm2
    rw [← hkeys]
    exact h.noEmpty m hm
  · intro m2 hm2
    obtain ⟨m, hm, hcid, _⟩ := hmem m2 hm2
    rw [← hcid]
    exact h.known m hm
  · intro m2 hm2
    obtain ⟨m, hm, _, hkeys⟩ := hmem m2 hm2
    rw [← hkeys]
    exact h.keysNodup m hm

/-- Replaying the full-mode snapshot of `s` on top of `acc` rebuilds `s`
(flags recomputed from the registry), provided the combined store is
well formed. -/
theorem rebuild_all (reg : Registry) :
    ∀ s acc : Store, WFStore reg (acc ++ s) →
    (fullEntries s).foldl (applyXmlEntry reg) acc =
      acc ++ s.map (fun m =>
        { m with wantsKeyUpDownCallbacks := registryWantsKeyUpDown reg m.commandID }) := by
  intro s
  induction s with
  | nil =>
      intro acc _
      simp [fullEntries]
  | cons m rest ih =>
      intro acc hwf
      unfold fullEntries
      rw [List.flatMap_cons, List.foldl_append]
      have hmem : m ∈ acc ++ m :: rest := List.mem_append_right _ (List.mem_cons_self m rest)
      have h0 : m.commandID ≠ 0 := hwf.noZero m hmem
      have hk := hwf.known m hmem
      have hne := hwf.noEmpty m hmem
      have hnd := hwf.keysNodup m hmem
      have hpair : ∀ a ∈ acc, ∀ b ∈ m :: rest, ∀ k ∈ a.keypresses, k ∉ b.keypresses :=
        (List.pairwise_append.mp hwf.i1).2.2
      have hub : ∀ x ∈ m.keypresses, KeyUnbound acc x := by
        intro x hx m₀ hm₀ hxm₀
        exact hpair m₀ hm₀ m (List.mem_cons_self m rest) x hxm₀ hx
      have hcid : ∀ m₀ ∈ acc, m₀.commandID ≠ m.commandID := by
        intro m₀ hm₀ hcon
        have h2 := hwf.i2
        rw [I2, List.map_append, List.nodup_append] at h2
        exact h2.2.2 (List.mem_map_of_mem _ hm₀)
          (by rw [hcon]; exact List.mem_map_of_mem _ (List.mem_cons_self m rest))
      have hemp : NoEmpty acc := fun m₀ hm₀ => hwf.noEmpty m₀ (List.mem_append_left _ hm₀)
      rw [rebuild_entry reg acc m h0 hk hne hnd hub hcid hemp]
      have hwf2 : WFStore reg ((acc ++
          [⟨m.commandID, m.keypresses, registryWantsKeyUpDown reg m.commandID⟩]) ++ rest) := by
        refine wfStore_of_proj_eq ?_ hwf
        rw [← List.append_cons]
        rw [List.map_append, List.map_append, List.map_cons, List.map_cons]
      have := ih (acc ++ [⟨m.commandID, m.keypresses, registryWantsKeyUpDown reg m.commandID⟩]) hwf2
      rw [show (fullEntries rest) = rest.flatMap
        (fun m => m.keypresses.map (XmlMapEntry.mapping m.commandID)) from rfl] at this
      rw [this]
      rw [← List.append_cons]
      rw [List.map_cons]

/-- C3 (full-mode round trip): for every well-formed Binding Store built
purely from commandIds recognized by the registry, restoring the document
`createXml` produces in full mode (`saveDifferencesFromDefaultSet = false`)
succeeds and reproduces the exact pre-serialization store: the same
commandIds with the same key lists in the same order. -/
theorem c3_full_roundtrip (reg : Registry) (s : Store) (h : WFStore reg s) :
    (restoreFromXml reg s (createXml reg s false)).1 = true ∧
    (restoreFromXml reg s (createXml reg s false)).2.map
        (fun m => (m.commandID, m.keypresses)) =
      s.map (fun m => (m.commandID, m.keypresses)) := by
  have hx : createXml reg s false = ⟨keymapRootTag, false, fullEntries s⟩ := by
    unfold createXml
    rw [if_neg Bool.false_ne_true]
  rw [hx]
  have hr : restoreFromXml reg s ⟨keymapRootTag, false, fullEntries s⟩ =
      (true, (fullEntries s).foldl (applyXmlEntry reg) []) := by
    unfold restoreFromXml
    rw [if_pos rfl]
    show (true, (fullEntries s).foldl (applyXmlEntry reg)
      (if false = true then resetToDefaultMappings reg s else clearAllKeyPresses s)) = _
    rw [if_neg Bool.false_ne_true]
    rfl
  rw [hr]
  refine ⟨rfl, ?_⟩
  have hall := rebuild_all reg s [] (by simpa using h)
  show ((fullEntries s).foldl (applyXmlEntry reg) []).map
      (fun m => (m.commandID, m.keypresses)) = _
  rw [hall, List.nil_append, List.map_map]
  rfl

/-- Witness for C3 at a concrete two-command store. -/
theorem c3_full_roundtrip_witness :
    (restoreFromXml ([⟨7, [⟨1, 0⟩], 4⟩, ⟨9, [], 0⟩] : Registry)
        ([⟨9, [⟨2, 0⟩], false⟩, ⟨7, [⟨1, 0⟩, ⟨3, 1⟩], true⟩] : Store)
        (createXml ([⟨7, [⟨1, 0⟩], 4⟩, ⟨9, [], 0⟩] : Registry)
          ([⟨9, [⟨2, 0⟩], false⟩, ⟨7, [⟨1, 0⟩, ⟨3, 1⟩], true⟩] : Store) false)).1 = true ∧
    (restoreFromXml ([⟨7, [⟨1, 0⟩], 4⟩, ⟨9, [], 0⟩] : Registry)
        ([⟨9, [⟨2, 0⟩], false⟩, ⟨7, [⟨1, 0⟩, ⟨3, 1⟩], true⟩] : Store)
        (createXml ([⟨7, [⟨1, 0⟩], 4⟩, ⟨9, [], 0⟩] : Registry)
          ([⟨9, [⟨2, 0⟩], false⟩, ⟨7, [⟨1, 0⟩, ⟨3, 1⟩], true⟩] : Store) false)).2.map
        (fun m => (m.commandID, m.keypresses)) =
      ([⟨9, [⟨2, 0⟩], false⟩, ⟨7, [⟨1, 0⟩, ⟨3, 1⟩], true⟩] : Store).map
        (fun m => (m.commandID, m.keypresses)) :=
  c3_full_roundtrip ([⟨7, [⟨1, 0⟩], 4⟩, ⟨9, [], 0⟩] : Registry)
    ([⟨9, [⟨2, 0⟩], false⟩, ⟨7, [⟨1, 0⟩, ⟨3, 1⟩], true⟩] : Store)
    ⟨by decide, by decide, by decide, by decide, by decide, by decide⟩

/-! ## Diff-mode round trip (C2) -/

theorem boundTo_applyEntry_other {reg : Registry} {t : Store} {e : XmlMapEntry}
    {c : CommandID} {k : KeyPress} (hne : entryKey e ≠ k) :
    BoundTo (applyXmlEntry reg t e) c k ↔ BoundTo t c k := by
  cases e with
  | mapping cid k2 =>
      simp only [entryKey] at hne
      simp only [applyXmlEntry]
      split
      · exact boundTo_addKeyPress_other (Ne.symm hne)
      · exact Iff.rfl
  | unmapping cid k2 =>
      simp only [entryKey] at hne
      simp only [applyXmlEntry]
      split
      · split
        · exact boundTo_removeKeyPress (Ne.symm hne)
        · exact Iff.rfl
      · exact Iff.rfl

theorem boundTo_applyEntry_mapping_self {reg : Registry} {t : Store} {cid c : CommandID}
    {k : KeyPress} (h1 : I1 t) (hcid0 : cid ≠ 0)
    (hk : (getCommandForID reg cid).isSome = true) :
    BoundTo (applyXmlEntry reg t (XmlMapEntry.mapping cid k)) c k ↔ c = cid := by
  simp only [applyXmlEntry]
  rw [if_pos hk]
  exact boundTo_addKeyPress_self h1 hcid0

theorem boundTo_applyEntry_unmapping_self {reg : Registry} {t : Store} {cid c : CommandID}
    {k : KeyPress} (h1 : I1 t) (hk : (getCommandForID reg cid).isSome = true) :
    BoundTo (applyXmlEntry reg t (XmlMapEntry.unmapping cid k)) c k ↔
      (BoundTo t c k ∧ c ≠ cid) := by
  simp only [applyXmlEntry]
  rw [if_pos hk]
  by_cases hg : containsMapping t cid k = true
  · rw [if_pos hg]
    constructor
    · intro hb
      have hu := keyUnbound_removeKeyPress t k
      rw [keyUnbound_iff_not_boundTo] at hu
      exact absurd hb (hu c)
    · rintro ⟨hb, hne⟩
      have hc1 := findCommand_eq_of_boundTo h1 hb
      have hc2 := findCommand_eq_of_boundTo h1 hg
      exact absurd (hc1.symm.trans hc2) hne
  · rw [if_neg hg]
    constructor
    · intro hb
      refine ⟨hb, ?_⟩
      rintro rfl
      exact hg hb
    · exact And.left

theorem wfLite_applyXmlEntry {reg : Registry} {t : Store} (e : XmlMapEntry)
    (h : I1 t ∧ I2 t ∧ NoZero t) :
    I1 (applyXmlEntry reg t e) ∧ I2 (applyXmlEntry reg t e) ∧
      NoZero (applyXmlEntry reg t e) := by
  cases e with
  | mapping cid k =>
      simp only [applyXmlEntry]
      split
      · exact ⟨I1_addKeyPress h.1 h.2.1, I2_addKeyPress h.2.1, noZero_addKeyPress h.2.2⟩
      · exact h
  | unmapping cid k =>
      simp only [applyXmlEntry]
      split
      · split
        · exact ⟨I1_removeKeyPress h.1 k, I2_removeKeyPress h.2.1 k,
            noZero_removeKeyPress h.2.2 k⟩
        · exact h
      · exact h

theorem getLast?_cons_ne_nil {α : Type _} {a : α} {l : List α} (h : l ≠ []) :
    (a :: l).getLast? = l.getLast? := by
  cases l with
  | nil => exact absurd rfl h
  | cons b l2 => exact List.getLast?_cons_cons

theorem lastAssignFor_cons_hit (cid : CommandID) (k : KeyPress) (A : List XmlMapEntry) :
    lastAssignFor (XmlMapEntry.mapping cid k :: A) k =
      match lastAssignFor A k with
      | some c0 => some c0
      | none => some cid := by
  unfold lastAssignFor
  rw [List.filterMap_cons]
  have hhead : assignsTo k (XmlMapEntry.mapping cid k) = some cid := by
    simp [assignsTo]
  rw [hhead]
  cases hL : A.filterMap (assignsTo k) with
  | nil => rfl
  | cons b L2 =>
      show (cid :: b :: L2).getLast? = match (b :: L2).getLast? with
        | some c0 => some c0
        | none => some cid
      rw [List.getLast?_cons_cons]
      cases hg : (b :: L2).getLast? with
      | none =>
          rw [List.getLast?_eq_none_iff] at hg
          exact absurd hg (by simp)
      | some c0 => rfl

theorem lastAssignFor_cons_miss {e : XmlMapEntry} {k : KeyPress} {A : List XmlMapEntry}
    (h : ∀ cid, e ≠ XmlMapEntry.mapping cid k) :
    lastAssignFor (e :: A) k = lastAssignFor A k := by
  unfold lastAssignFor
  rw [List.filterMap_cons]
  have hhead : assignsTo k e = none := by
    cases e with
    | mapping cid k2 =>
        have hne : k2 ≠ k := by
          intro hk2
          exact (h cid) (by rw [hk2])
        simp [assignsTo, hne]
    | unmapping cid k2 => rfl
  rw [hhead]

/-- Replaying a list of addition entries: for each key, the last addition
naming it decides its binding; keys no addition names keep their binding. -/
theorem foldl_additions_boundTo (reg : Registry) (A : List XmlMapEntry) :
    ∀ t : Store, (I1 t ∧ I2 t ∧ NoZero t) →
    (∀ e ∈ A, ∃ cid k2, e = XmlMapEntry.mapping cid k2 ∧ cid ≠ 0 ∧
      (getCommandForID reg cid).isSome = true) →
    ∀ c k, BoundTo (A.foldl (applyXmlEntry reg) t) c k ↔
      (match lastAssignFor A k with
       | some c0 => c = c0
       | none => BoundTo t c k) := by
  induction A with
  | nil =>
      intro t _ _ c k
      simp only [List.foldl_nil, lastAssignFor, List.filterMap_nil, List.getLast?]
  | cons e A2 ih =>
      intro t ht hA c k
      obtain ⟨cid, k2, rfl, hcid0, hk⟩ := hA e (List.mem_cons_self e A2)
      rw [List.foldl_cons]
      rw [ih (applyXmlEntry reg t (XmlMapEntry.mapping cid k2))
        (wfLite_applyXmlEntry _ ht) (fun e2 he2 => hA e2 (List.mem_cons_of_mem _ he2)) c k]
      by_cases hkk : k2 = k
      · subst hkk
        rw [lastAssignFor_cons_hit]
        cases hL : lastAssignFor A2 k2 with
        | none => exact boundTo_applyEntry_mapping_self ht.1 hcid0 hk
        | some c0 => exact Iff.rfl
      · rw [lastAssignFor_cons_miss (fun cid2 hcon => hkk (by injection hcon))]
        cases hL : lastAssignFor A2 k with
        | none => exact boundTo_applyEntry_other (by simpa [entryKey] using hkk)
        | some c0 => exact Iff.rfl

/-- Replaying a list of explicit-removal entries deletes exactly the named
(command, key) pairs. -/
theorem foldl_removals_boundTo (reg : Registry) (R : List XmlMapEntry) :
    ∀ t : Store, (I1 t ∧ I2 t ∧ NoZero t) →
    (∀ e ∈ R, ∃ cid k2, e = XmlMapEntry.unmapping cid k2 ∧
      (getCommandForID reg cid).isSome = true) →
    ∀ c k, BoundTo (R.foldl (applyXmlEntry reg) t) c k ↔
      (BoundTo t c k ∧ XmlMapEntry.unmapping c k ∉ R) := by
  induction R with
  | nil =>
      intro t _ _ c k
      simp
  | cons e R2 ih =>
      intro t ht hR c k
      obtain ⟨cid, k2, rfl, hk⟩ := hR e (List.mem_cons_self e R2)
      rw [List.foldl_cons]
      rw [ih (applyXmlEntry reg t (XmlMapEntry.unmapping cid k2))
        (wfLite_applyXmlEntry _ ht) (fun e2 he2 => hR e2 (List.mem_cons_of_mem _ he2)) c k]
      by_cases hkk : k2 = k
      · subst hkk
        rw [boundTo_applyEntry_unmapping_self ht.1 hk]
        have hmem : (XmlMapEntry.unmapping c k2 ∈ (XmlMapEntry.unmapping cid k2 :: R2)) ↔
            (c = cid ∨ XmlMapEntry.unmapping c k2 ∈ R2) := by
          rw [List.mem_cons]
          constructor
          · rintro (h | h)
            · injection h with h1 h2
              exact Or.inl h1
            · exact Or.inr h
          · rintro (rfl | h)
            · exact Or.inl rfl
            · exact Or.inr h
        constructor
        · rintro ⟨⟨hb, hne⟩, hnot⟩
          refine ⟨hb, ?_⟩
          intro hc
          rcases hmem.mp hc with hc | hc
          · exact hne hc
          · exact hnot hc
        · rintro ⟨hb, hnot⟩
          exact ⟨⟨hb, fun hc => hnot (hmem.mpr (Or.inl hc))⟩,
            fun hc => hnot (hmem.mpr (Or.inr hc))⟩
      · rw [boundTo_applyEntry_other (by simpa [entryKey] using hkk)]
        have hmem : (XmlMapEntry.unmapping c k ∈ (XmlMapEntry.unmapping cid k2 :: R2)) ↔
            XmlMapEntry.unmapping c k ∈ R2 := by
          rw [List.mem_cons]
          constructor
          · rintro (h | h)
            · injection h with h1 h2
              exact absurd h2.symm hkk
            · exact h
          · exact Or.inr
        constructor
        · rintro ⟨hb, hnot⟩
          exact ⟨hb, fun hc => hnot (hmem.mp hc)⟩
        · rintro ⟨hb, hnot⟩
          exact ⟨hb, fun hc => hnot (hmem.mpr hc)⟩

theorem not_boundTo_iff_contains_false {s : Store} {c : CommandID} {k : KeyPress} :
    ¬ BoundTo s c k ↔ containsMapping s c k = false := by
  unfold BoundTo
  cases h : containsMapping s c k <;> simp

theorem mem_filterMap_additions_iff {D s : Store} {k : KeyPress} {c0 : CommandID} :
    c0 ∈ (diffAdditions D s).filterMap (assignsTo k) ↔
      (BoundTo s c0 k ∧ ¬ BoundTo D c0 k) := by
  constructor
  · intro h
    obtain ⟨e, he, hassign⟩ := List.mem_filterMap.mp h
    obtain ⟨m, hm, he2⟩ := List.mem_flatMap.mp he
    obtain ⟨k2, hk2, rfl⟩ := List.mem_map.mp he2
    have hk2' := List.mem_filter.mp hk2
    simp only [assignsTo] at hassign
    by_cases hkk : k2 = k
    · rw [if_pos hkk] at hassign
      injection hassign with hcid
      subst hkk
      constructor
      · exact boundTo_iff.mpr ⟨m, hm, hcid, hk2'.1⟩
      · rw [← hcid]
        exact not_boundTo_iff_contains_false.mpr (by simpa using hk2'.2)
    · rw [if_neg hkk] at hassign
      exact absurd hassign (by simp)
  · rintro ⟨hb, hnd⟩
    obtain ⟨m, hm, hcid, hk⟩ := boundTo_iff.mp hb
    refine List.mem_filterMap.mpr ⟨XmlMapEntry.mapping m.commandID k, ?_, ?_⟩
    · refine List.mem_flatMap.mpr ⟨m, hm, ?_⟩
      refine List.mem_map.mpr ⟨k, ?_, rfl⟩
      refine List.mem_filter.mpr ⟨hk, ?_⟩
      rw [hcid]
      simpa using not_boundTo_iff_contains_false.mp hnd
    · simp only [assignsTo]
      simp [hcid]

theorem mem_diffRemovals_iff {D s : Store} {c : CommandID} {k : KeyPress} :
    XmlMapEntry.unmapping c k ∈ diffRemovals D s ↔
      (BoundTo D c k ∧ ¬ BoundTo s c k) := by
  constructor
  · intro h
    obtain ⟨m, hm, he⟩ := List.mem_flatMap.mp h
    obtain ⟨k2, hk2, heq⟩ := List.mem_map.mp he
    injection heq with h1 h2
    subst h2
    have hk2' := List.mem_filter.mp hk2
    refine ⟨boundTo_iff.mpr ⟨m, hm, h1, hk2'.1⟩, ?_⟩
    rw [← h1]
    exact not_boundTo_iff_contains_false.mpr (by simpa using hk2'.2)
  · rintro ⟨hb, hns⟩
    obtain ⟨m, hm, hcid, hk⟩ := boundTo_iff.mp hb
    refine List.mem_flatMap.mpr ⟨m, hm, ?_⟩
    refine List.mem_map.mpr ⟨k, ?_, by rw [hcid]⟩
    refine List.mem_filter.mpr ⟨hk, ?_⟩
    rw [hcid]
    simpa using not_boundTo_iff_contains_false.mp hns

theorem diffAdditions_ok {reg : Registry} {D s : Store} (h : WFStore reg s) :
    ∀ e ∈ diffAdditions D s, ∃ cid k2, e = XmlMapEntry.mapping cid k2 ∧ cid ≠ 0 ∧
      (getCommandForID reg cid).isSome = true := by
  intro e he
  obtain ⟨m, hm, he2⟩ := List.mem_flatMap.mp he
  obtain ⟨k2, _, rfl⟩ := List.mem_map.mp he2
  exact ⟨m.commandID, k2, rfl, h.noZero m hm, h.known m hm⟩

theorem diffRemovals_ok {reg : Registry} {D s : Store} (hD : WFStore reg D) :
    ∀ e ∈ diffRemovals D s, ∃ cid k2, e = XmlMapEntry.unmapping cid k2 ∧
      (getCommandForID reg cid).isSome = true := by
  intro e he
  obtain ⟨m, hm, he2⟩ := List.mem_flatMap.mp he
  obtain ⟨k2, _, rfl⟩ := List.mem_map.mp he2
  exact ⟨m.commandID, k2, rfl, hD.known m hm⟩

/-- Diff-mode round trip at the binding level: restoring the diff-mode
document of a well-formed store succeeds and reproduces exactly the same
key-to-command bindings. -/
theorem diff_restore_boundTo (reg : Registry) (s : Store) (h : WFStore reg s) :
    (restoreFromXml reg s (createXml reg s true)).1 = true ∧
    ∀ c k, BoundTo (restoreFromXml reg s (createXml reg s true)).2 c k ↔
      BoundTo s c k := by
  have hD : WFStore reg (resetToDefaultMappings reg s) := wfStore_reset reg s
  have hx : createXml reg s true = ⟨keymapRootTag, true,
      diffAdditions (resetToDefaultMappings reg s) s ++
        diffRemovals (resetToDefaultMappings reg s) s⟩ := by
    unfold createXml
    rw [if_pos rfl]
  rw [hx]
  have hr : restoreFromXml reg s ⟨keymapRootTag, true,
      diffAdditions (resetToDefaultMappings reg s) s ++
        diffRemovals (resetToDefaultMappings reg s) s⟩ =
      (true, (diffAdditions (resetToDefaultMappings reg s) s ++
        diffRemovals (resetToDefaultMappings reg s) s).foldl (applyXmlEntry reg)
          (resetToDefaultMappings reg s)) := by
    unfold restoreFromXml
    rw [if_pos rfl]
    show (true, List.foldl _ (if true = true then resetToDefaultMappings reg s
      else clearAllKeyPresses s) _) = _
    rw [if_pos rfl]
  rw [hr]
  refine ⟨rfl, ?_⟩
  intro c k
  rw [List.foldl_append]
  have hlite : I1 (resetToDefaultMappings reg s) ∧ I2 (resetToDefaultMappings reg s) ∧
      NoZero (resetToDefaultMappings reg s) := ⟨hD.i1, hD.i2, hD.noZero⟩
  have hliteA : I1 ((diffAdditions (resetToDefaultMappings reg s) s).foldl
        (applyXmlEntry reg) (resetToDefaultMappings reg s)) ∧
      I2 ((diffAdditions (resetToDefaultMappings reg s) s).foldl
        (applyXmlEntry reg) (resetToDefaultMappings reg s)) ∧
      NoZero ((diffAdditions (resetToDefaultMappings reg s) s).foldl
        (applyXmlEntry reg) (resetToDefaultMappings reg s)) :=
    foldl_invariant (fun t => I1 t ∧ I2 t ∧ NoZero t) (applyXmlEntry reg)
      (diffAdditions (resetToDefaultMappings reg s) s) (resetToDefaultMappings reg s)
      hlite (fun t e hp => wfLite_applyXmlEntry e hp)
  rw [foldl_removals_boundTo reg (diffRemovals (resetToDefaultMappings reg s) s) _
    hliteA (diffRemovals_ok hD) c k]
  rw [foldl_additions_boundTo reg (diffAdditions (resetToDefaultMappings reg s) s)
    (resetToDefaultMappings reg s) hlite (diffAdditions_ok h) c k]
  constructor
  · rintro ⟨hmatch, hnot⟩
    cases hL : lastAssignFor (diffAdditions (resetToDefaultMappings reg s) s) k with
    | some c0 =>
        rw [hL] at hmatch
        have hcc : c = c0 := hmatch
        subst hcc
        unfold lastAssignFor at hL
        have hc0 := List.mem_of_mem_getLast? hL
        exact (mem_filterMap_additions_iff.mp hc0).1
    | none =>
        rw [hL] at hmatch
        have hbd : BoundTo (resetToDefaultMappings reg s) c k := hmatch
        by_contra hns
        exact hnot (mem_diffRemovals_iff.mpr ⟨hbd, hns⟩)
  · intro hb
    constructor
    · cases hL : lastAssignFor (diffAdditions (resetToDefaultMappings reg s) s) k with
      | some c0 =>
          show c = c0
          unfold lastAssignFor at hL
          have hc0 := List.mem_of_mem_getLast? hL
          have h1 := (mem_filterMap_additions_iff.mp hc0).1
          exact (findCommand_eq_of_boundTo h.i1 hb).symm.trans
            (findCommand_eq_of_boundTo h.i1 h1)
      | none =>
          show BoundTo (resetToDefaultMappings reg s) c k
          by_contra hnd
          have hcmem : c ∈ (diffAdditions (resetToDefaultMappings reg s) s).filterMap
              (assignsTo k) := mem_filterMap_additions_iff.mpr ⟨hb, hnd⟩
          unfold lastAssignFor at hL
          rw [List.getLast?_eq_none_iff] at hL
          rw [hL] at hcmem
          exact absurd hcmem (List.not_mem_nil c)
    · intro hcon
      exact (mem_diffRemovals_iff.mp hcon).2 hb

/-- C2 counterexample: the claim as stated — that restoring the diff-mode
document reproduces *exactly* the resulting Binding Store — is false: over
a registry knowing commands 1 (default key ⟨1,0⟩) and 2 (no default keys),
the registry-known sequence "remove ⟨1,0⟩; assign ⟨2,0⟩ to 2; assign
⟨1,0⟩ to 1" yields entries ordered [2, 1], but the diff round trip
rebuilds them in default order [1, 2]. -/
theorem c2_diff_roundtrip_counterexample :
    (∀ op ∈ ([MapOp.removeKey ⟨1, 0⟩, MapOp.assign 2 ⟨2, 0⟩ (-1),
        MapOp.assign 1 ⟨1, 0⟩ (-1)] : List MapOp),
      OpOk ([⟨1, [⟨1, 0⟩], 0⟩, ⟨2, [], 0⟩] : Registry) op) ∧
    (restoreFromXml ([⟨1, [⟨1, 0⟩], 0⟩, ⟨2, [], 0⟩] : Registry)
        (applyOps ([⟨1, [⟨1, 0⟩], 0⟩, ⟨2, [], 0⟩] : Registry)
          (resetToDefaultMappings ([⟨1, [⟨1, 0⟩], 0⟩, ⟨2, [], 0⟩] : Registry) [])
          [MapOp.removeKey ⟨1, 0⟩, MapOp.assign 2 ⟨2, 0⟩ (-1),
            MapOp.assign 1 ⟨1, 0⟩ (-1)])
        (createXml ([⟨1, [⟨1, 0⟩], 0⟩, ⟨2, [], 0⟩] : Registry)
          (applyOps ([⟨1, [⟨1, 0⟩], 0⟩, ⟨2, [], 0⟩] : Registry)
            (resetToDefaultMappings ([⟨1, [⟨1, 0⟩], 0⟩, ⟨2, [], 0⟩] : Registry) [])
            [MapOp.removeKey ⟨1, 0⟩, MapOp.assign 2 ⟨2, 0⟩ (-1),
              MapOp.assign 1 ⟨1, 0⟩ (-1)]) true)).2 ≠
      applyOps ([⟨1, [⟨1, 0⟩], 0⟩, ⟨2, [], 0⟩] : Registry)
        (resetToDefaultMappings ([⟨1, [⟨1, 0⟩], 0⟩, ⟨2, [], 0⟩] : Registry) [])
        [MapOp.removeKey ⟨1, 0⟩, MapOp.assign 2 ⟨2, 0⟩ (-1),
          MapOp.assign 1 ⟨1, 0⟩ (-1)] := by
  constructor
  · decide
  · decide

/-- C2 as amended: starting from the default mappings and applying any
finite sequence of assign/remove calls over registry-known commandIds,
restoring the diff-mode document succeeds and reproduces a Binding Store
with exactly the same key-to-command bindings — every key bound to the
same commandId (`containsMapping` agrees on all pairs) — though entries
and key lists may appear in a different order. -/
theorem c2_diff_roundtrip_amended (reg : Registry) (ops : List MapOp)
    (hops : ∀ op ∈ ops, OpOk reg op) :
    (restoreFromXml reg (applyOps reg (resetToDefaultMappings reg []) ops)
        (createXml reg (applyOps reg (resetToDefaultMappings reg []) ops) true)).1 = true ∧
    ∀ c k,
      BoundTo (restoreFromXml reg (applyOps reg (resetToDefaultMappings reg []) ops)
          (createXml reg (applyOps reg (resetToDefaultMappings reg []) ops) true)).2 c k ↔
        BoundTo (applyOps reg (resetToDefaultMappings reg []) ops) c k :=
  diff_restore_boundTo reg (applyOps reg (resetToDefaultMappings reg []) ops)
    (wfStore_applyOps (wfStore_reset reg []) hops)

/-- Witness for C2's amended claim at the counterexample's registry and
operation sequence. -/
theorem c2_diff_roundtrip_amended_witness :
    (restoreFromXml ([⟨1, [⟨1, 0⟩], 0⟩, ⟨2, [], 0⟩] : Registry)
        (applyOps ([⟨1, [⟨1, 0⟩], 0⟩, ⟨2, [], 0⟩] : Registry)
          (resetToDefaultMappings ([⟨1, [⟨1, 0⟩], 0⟩, ⟨2, [], 0⟩] : Registry) [])
          [MapOp.removeKey ⟨1, 0⟩, MapOp.assign 2 ⟨2, 0⟩ (-1),
            MapOp.assign 1 ⟨1, 0⟩ (-1)])
        (createXml ([⟨1, [⟨1, 0⟩], 0⟩, ⟨2, [], 0⟩] : Registry)
          (applyOps ([⟨1, [⟨1, 0⟩], 0⟩, ⟨2, [], 0⟩] : Registry)
            (resetToDefaultMappings ([⟨1, [⟨1, 0⟩], 0⟩, ⟨2, [], 0⟩] : Registry) [])
            [MapOp.removeKey ⟨1, 0⟩, MapOp.assign 2 ⟨2, 0⟩ (-1),
              MapOp.assign 1 ⟨1, 0⟩ (-1)]) true)).1 = true ∧
    ∀ c k,
      BoundTo (restoreFromXml ([⟨1, [⟨1, 0⟩], 0⟩, ⟨2, [], 0⟩] : Registry)
          (applyOps ([⟨1, [⟨1, 0⟩], 0⟩, ⟨2, [], 0⟩] : Registry)
            (resetToDefaultMappings ([⟨1, [⟨1, 0⟩], 0⟩, ⟨2, [], 0⟩] : Registry) [])
            [MapOp.removeKey ⟨1, 0⟩, MapOp.assign 2 ⟨2, 0⟩ (-1),
              MapOp.assign 1 ⟨1, 0⟩ (-1)])
          (createXml ([⟨1, [⟨1, 0⟩], 0⟩, ⟨2, [], 0⟩] : Registry)
            (applyOps ([⟨1, [⟨1, 0⟩], 0⟩, ⟨2, [], 0⟩] : Registry)
              (resetToDefaultMappings ([⟨1, [⟨1, 0⟩], 0⟩, ⟨2, [], 0⟩] : Registry) [])
              [MapOp.removeKey ⟨1, 0⟩, MapOp.assign 2 ⟨2, 0⟩ (-1),
                MapOp.assign 1 ⟨1, 0⟩ (-1)]) true)).2 c k ↔
        BoundTo (applyOps ([⟨1, [⟨1, 0⟩], 0⟩, ⟨2, [], 0⟩] : Registry)
          (resetToDefaultMappings ([⟨1, [⟨1, 0⟩], 0⟩, ⟨2, [], 0⟩] : Registry) [])
          [MapOp.removeKey ⟨1, 0⟩, MapOp.assign 2 ⟨2, 0⟩ (-1),
            MapOp.assign 1 ⟨1, 0⟩ (-1)]) c k :=
  c2_diff_roundtrip_amended ([⟨1, [⟨1, 0⟩], 0⟩, ⟨2, [], 0⟩] : Registry)
    [MapOp.removeKey ⟨1, 0⟩, MapOp.assign 2 ⟨2, 0⟩ (-1), MapOp.assign 1 ⟨1, 0⟩ (-1)]
    (by decide)

end JuceKeyMap
